import Mathlib

/-!
Verification development for the TranscribeMonkey chunked-transcription and
subtitle pipeline.  The Python sources are embedded shallowly:

* `processor/srt_formatter.py` — documents are `List Char`; the module-level
  functions `parse_srt`, `time_to_seconds`, `seconds_to_time`, `format_srt`
  and `correct_srt_format` are embedded below under the same names
  (`time_to_seconds`/`seconds_to_time` appear in exact milliseconds, see the
  doc comments).  The regular expression used by `parse_srt` is embedded as a
  deterministic scanner; determinism of the backtracking search is argued in
  the doc comment of `matchEntry`.
* `processor/transcriber.py` — `split_audio` and `transcribe_chunks`, with the
  speech-recognition collaborator abstracted as the list of per-chunk results
  it returns, cancellation as the sequence of values the flag shows at the
  per-chunk checks, and the progress callback recorded in an event trace.
* `processor/translator.py` — `translate_text`, with the two providers
  abstracted as functions returning `some translation` or `none` (an
  exception), and sleeps/attempts recorded in an event trace.

All time arithmetic of the formatter lives on the millisecond grid, so it is
represented exactly over `ℕ` (milliseconds); the float arithmetic of the
source is idealized as exact arithmetic on that grid.
-/

namespace TranscribeMonkey

/-! ### Characters and digits -/

/-- Whitespace as matched by Python's `\s` and stripped by `str.strip()`,
restricted to the ASCII range the subtitle documents use: space, tab,
newline, carriage return, vertical tab and form feed. -/
def pySpace (c : Char) : Bool :=
  c == ' ' || c == '\t' || c == '\n' || c == '\r' || c == '\x0b' || c == '\x0c'

/-- Python `int()` applied to a string of decimal digits, as in
`int(match.group(1))` of `parse_srt`. -/
def digitsToNat (l : List Char) : ℕ :=
  l.foldl (fun a c => 10 * a + (c.toNat - 48)) 0

/-- One decimal digit rendered as a character. -/
def digitChar (n : ℕ) : Char := Char.ofNat (48 + n)

/-- Fuelled decimal rendering (the fuel only serves structural recursion; with
fuel above the number it never runs out). -/
def natToDigitsF : ℕ → ℕ → List Char
  | 0, _ => []
  | fuel + 1, n =>
    if n < 10 then [digitChar n]
    else natToDigitsF fuel (n / 10) ++ [digitChar (n % 10)]

/-- Decimal rendering of a natural number, as Python `str(n)` / f-string
formatting of an `int` produces it. -/
def natToDigits (n : ℕ) : List Char := natToDigitsF (n + 1) n

/-- Left-pad with zeros to width `w`, as the Python format specifier `02`/`03`
does (longer strings are left unchanged). -/
def padZeros (w : ℕ) (l : List Char) : List Char :=
  List.replicate (w - l.length) '0' ++ l

/-- Python `str.split(sep)` for a one-character separator: splits at every
occurrence, keeping empty parts. -/
def splitOnChar (sep : Char) : List Char → List (List Char)
  | [] => [[]]
  | c :: rest =>
    match splitOnChar sep rest with
    | [] => [[c]]
    | p :: ps => if c == sep then [] :: p :: ps else (c :: p) :: ps

/-- Python `str.strip()`: drop leading and trailing whitespace. -/
def pyStrip (l : List Char) : List Char :=
  ((l.dropWhile pySpace).reverse.dropWhile pySpace).reverse

/-! ### Subtitle entries and timecodes -/

/-- One parsed subtitle entry, the dictionary built by `parse_srt`
(keys `index`, `start`, `end`, `text`); the `end` key is called `stop` here
because `end` is reserved in Lean.  `start` and `stop` hold the raw
`HH:MM:SS,mmm` strings exactly as the Python dictionary does. -/
structure Entry where
  index : ℕ
  start : List Char
  stop : List Char
  text : List Char
deriving DecidableEq

/-- Embedding of `time_to_seconds`, which computes
`h*3600 + m*60 + s + ms/1000` after splitting on `:` and `,`.  Every value the
formatter manipulates lies on the millisecond grid, so the result is returned
exactly, in milliseconds (the source's seconds value scaled by 1000).  Inputs
that do not split into the shapes the source destructures (which would raise
in Python and are unreachable from the parser) map to 0. -/
def time_to_seconds (t : List Char) : ℕ :=
  match splitOnChar ':' t with
  | [h, m, sms] =>
    match splitOnChar ',' sms with
    | [s, ms] =>
      digitsToNat h * 3600000 + digitsToNat m * 60000 +
        digitsToNat s * 1000 + digitsToNat ms
    | _ => 0
  | _ => 0

/-- Embedding of `seconds_to_time`, taking the time in milliseconds (see
`time_to_seconds`).  The source floors the value to whole seconds via
`int(td.total_seconds())` and extracts the remaining milliseconds; on the
millisecond grid those are `n / 1000` and `n % 1000` exactly.  Fields are
rendered with the `02`/`03` zero-padded formats of the f-string. -/
def seconds_to_time (n : ℕ) : List Char :=
  padZeros 2 (natToDigits (n / 1000 / 3600)) ++ ':' ::
    (padZeros 2 (natToDigits (n / 1000 % 3600 / 60)) ++ ':' ::
      (padZeros 2 (natToDigits (n / 1000 % 60)) ++ ',' ::
        padZeros 3 (natToDigits (n % 1000))))

/-- The `HH:MM:SS,mmm` shape matched by the timecode groups of the `parse_srt`
regular expression: exactly two digits, `:`, two digits, `:`, two digits, `,`,
three digits. -/
def validTimecode (t : List Char) : Bool :=
  match t with
  | [a, b, c, d, e, f, g, h, i, j, k, m] =>
    a.isDigit && b.isDigit && c == ':' && d.isDigit && e.isDigit && f == ':' &&
      g.isDigit && h.isDigit && i == ',' && j.isDigit && k.isDigit && m.isDigit
  | _ => false

/-- Match a `\d2:\d2:\d2,\d3` timecode at the head of the input, returning the
twelve matched characters and the remainder. -/
def matchTimecode : List Char → Option (List Char × List Char)
  | a :: b :: c :: d :: e :: f :: g :: h :: i :: j :: k :: m :: rest =>
    if a.isDigit && b.isDigit && c == ':' && d.isDigit && e.isDigit && f == ':' &&
        g.isDigit && h.isDigit && i == ',' && j.isDigit && k.isDigit && m.isDigit then
      some ([a, b, c, d, e, f, g, h, i, j, k, m], rest)
    else none
  | _ => none

/-- One attempt of the `parse_srt` regular expression anchored at the head of
the input.  The pattern is
`(\d+)\s+(\d2:\d2:\d2,\d3)\s*-->\s*(\d2:\d2:\d2,\d3)\s+([\s\S]*?)(?=\n\d+\s+\d2:\d2:\d2,\d3-->|$)`
with `re.MULTILINE`.  Backtracking is degenerate for this pattern, so the
match is computed by maximal munch: every greedy `\d+`/`\s+`/`\s*` run is
followed by a token its own character class cannot start, so shortening a run
never helps; the lazy text group stops at the first position where the
lookahead holds, and since the first lookahead branch demands a timecode
immediately followed by `-->` (no space) it can only hold where the `$` of
MULTILINE (before a newline, or at the end) already holds, so the text group
is exactly the run up to the next newline or the end of input.  The captured
text is stripped and has its carriage returns removed, as in the source. -/
def matchEntry (l : List Char) : Option (Entry × List Char) :=
  if (l.takeWhile Char.isDigit).isEmpty then none else
  if ((l.dropWhile Char.isDigit).takeWhile pySpace).isEmpty then none else
  match matchTimecode ((l.dropWhile Char.isDigit).dropWhile pySpace) with
  | none => none
  | some (t1, r3) =>
    match r3.dropWhile pySpace with
    | '-' :: '-' :: '>' :: r5 =>
      match matchTimecode (r5.dropWhile pySpace) with
      | none => none
      | some (t2, r7) =>
        if (r7.takeWhile pySpace).isEmpty then none else
        some (⟨digitsToNat (l.takeWhile Char.isDigit), t1, t2,
               (pyStrip ((r7.dropWhile pySpace).takeWhile (fun c => c != '\n'))).filter
                 (fun c => c != '\r')⟩,
              (r7.dropWhile pySpace).dropWhile (fun c => c != '\n'))
    | _ => none

/-- Fuelled scanning loop of `re.finditer`: try a match at the current
position; on success emit the entry and resume after the matched text, on
failure advance one character.  The fuel only serves structural recursion
(each step consumes at least one character, so fuel equal to the input length
never runs out). -/
def parseLoopF : ℕ → List Char → List Entry
  | 0, _ => []
  | _ + 1, [] => []
  | fuel + 1, c :: t =>
    match matchEntry (c :: t) with
    | some (e, r) => e :: parseLoopF fuel r
    | none => parseLoopF fuel t

/-- Embedding of `parse_srt`: all matches of the entry pattern, in order. -/
def parse_srt (doc : List Char) : List Entry := parseLoopF doc.length doc

/-! ### Sorting, overlap repair, renumbering, serialization -/

/-- Insert an entry into an already sorted list, before the first entry with a
strictly larger start time, i.e. after all earlier entries with an equal key. -/
def insertSorted (e : Entry) : List Entry → List Entry
  | [] => [e]
  | x :: xs =>
    if time_to_seconds x.start < time_to_seconds e.start then x :: insertSorted e xs
    else e :: x :: xs

/-- Embedding of `sorted(entries, key=lambda x: time_to_seconds(x['start']))`.
Python's `sorted` is the stable ascending sort by the key, and a stable sort
is unique as a function of the input, so the stable insertion sort below is
extensionally the same function. -/
def sortEntries : List Entry → List Entry
  | [] => []
  | e :: rest => insertSorted e (sortEntries rest)

/-- The body of the overlap-adjustment loop of `format_srt` for one entry:
if the current entry starts before the (already finalized) previous entry
ends, push its start to the previous end plus one millisecond, and if its end
is then not after its start, push the end to the new start plus two seconds.
The pushed fields are re-rendered through `seconds_to_time` as in the
source. -/
def repairOne (prev c : Entry) : Entry :=
  if time_to_seconds c.start < time_to_seconds prev.stop then
    if time_to_seconds c.stop ≤ time_to_seconds prev.stop + 1 then
      { c with start := seconds_to_time (time_to_seconds prev.stop + 1),
               stop := seconds_to_time (time_to_seconds prev.stop + 1 + 2000) }
    else { c with start := seconds_to_time (time_to_seconds prev.stop + 1) }
  else c

/-- The overlap-adjustment loop from index 1 on: each entry is adjusted
against the already-adjusted entry before it. -/
def repairFrom (prev : Entry) : List Entry → List Entry
  | [] => []
  | c :: rest =>
    let c' := repairOne prev c
    c' :: repairFrom c' rest

/-- The whole overlap-adjustment pass of `format_srt` (the first entry is
never adjusted). -/
def repairOverlaps : List Entry → List Entry
  | [] => []
  | c :: rest => c :: repairFrom c rest

/-- The renumbering loop of `format_srt`: indices are reassigned `n, n+1, …`
in list order (the source starts at 1). -/
def renumberFrom (n : ℕ) : List Entry → List Entry
  | [] => []
  | e :: rest => { e with index := n } :: renumberFrom (n + 1) rest

/-- Serialization of one entry, the f-string
`f"{index}\n{start} --> {end}\n{text}\n\n"`. -/
def serializeEntry (e : Entry) : List Char :=
  natToDigits e.index ++ '\n' ::
    (e.start ++ ' ' :: '-' :: '-' :: '>' :: ' ' ::
      (e.stop ++ '\n' :: (e.text ++ ['\n', '\n'])))

/-- Embedding of `format_srt`: sort by start time, adjust overlaps, renumber
from 1, serialize. -/
def format_srt (entries : List Entry) : List Char :=
  ((renumberFrom 1 (repairOverlaps (sortEntries entries))).map serializeEntry).flatten

/-- Embedding of `correct_srt_format`: parse, and either fail (`None` models
the `ValueError` raised on zero entries) or re-format. -/
def correct_srt_format (doc : List Char) : Option (List Char) :=
  let entries := parse_srt doc
  if entries.isEmpty then none else some (format_srt entries)

/-! ### Helper lemmas: digits, padding, splitting -/

theorem isDigit_toNat {c : Char} (h : c.isDigit = true) : 48 ≤ c.toNat ∧ c.toNat ≤ 57 := by
  simp only [Char.isDigit, Bool.and_eq_true, decide_eq_true_eq] at h
  exact ⟨h.1, h.2⟩

theorem isDigit_ne_colon {c : Char} (h : c.isDigit = true) : (c == ':') = false := by
  simp only [beq_eq_false_iff_ne, ne_eq]
  intro hc
  subst hc
  exact absurd h (by decide)

theorem isDigit_ne_comma {c : Char} (h : c.isDigit = true) : (c == ',') = false := by
  simp only [beq_eq_false_iff_ne, ne_eq]
  intro hc
  subst hc
  exact absurd h (by decide)

theorem pySpace_of_isDigit {c : Char} (h : c.isDigit = true) : pySpace c = false := by
  simp only [pySpace, Bool.or_eq_false_iff, beq_eq_false_iff_ne, ne_eq]
  refine ⟨⟨⟨⟨⟨?_, ?_⟩, ?_⟩, ?_⟩, ?_⟩, ?_⟩ <;>
    (intro hc; subst hc; exact absurd h (by decide))

theorem isDigit_ne_newline {c : Char} (h : c.isDigit = true) : c ≠ '\n' := by
  intro hc
  subst hc
  exact absurd h (by decide)

theorem digitChar_isDigit {n : ℕ} (h : n < 10) : (digitChar n).isDigit = true := by
  interval_cases n <;> decide

theorem digitChar_toNat {n : ℕ} (h : n < 10) : (digitChar n).toNat = 48 + n := by
  interval_cases n <;> decide

theorem natToDigitsF_congr : ∀ {f g n : ℕ}, n < f → n < g → natToDigitsF f n = natToDigitsF g n := by
  intro f
  induction f with
  | zero => intro g n hf; omega
  | succ f ih =>
    intro g n hf hg
    rcases g with _ | g
    · omega
    · by_cases h10 : n < 10
      · simp [natToDigitsF, h10]
      · have hn : 0 < n := by omega
        have hd : n / 10 < n := Nat.div_lt_self hn (by omega)
        simp only [natToDigitsF, h10, if_false]
        congr 1
        exact ih (by omega) (by omega)

theorem natToDigitsF_all_digit :
    ∀ {f n : ℕ}, n < f → ∀ c ∈ natToDigitsF f n, c.isDigit = true := by
  intro f
  induction f with
  | zero => intro n hf; omega
  | succ f ih =>
    intro n hf c hc
    by_cases h10 : n < 10
    · simp only [natToDigitsF, h10, if_true, List.mem_singleton] at hc
      subst hc
      exact digitChar_isDigit h10
    · have hd : n / 10 < n := Nat.div_lt_self (by omega) (by omega)
      simp only [natToDigitsF, h10, if_false, List.mem_append, List.mem_singleton] at hc
      rcases hc with hc | hc
      · exact ih (by omega) c hc
      · subst hc
        exact digitChar_isDigit (Nat.mod_lt _ (by omega))

theorem natToDigits_all_digit (n : ℕ) : ∀ c ∈ natToDigits n, c.isDigit = true :=
  natToDigitsF_all_digit (Nat.lt_succ_self n)

theorem natToDigitsF_ne_nil : ∀ {f n : ℕ}, n < f → natToDigitsF f n ≠ [] := by
  intro f
  induction f with
  | zero => intro n hf; omega
  | succ f ih =>
    intro n hf
    by_cases h10 : n < 10
    · simp [natToDigitsF, h10]
    · simp [natToDigitsF, h10]

theorem natToDigits_ne_nil (n : ℕ) : natToDigits n ≠ [] :=
  natToDigitsF_ne_nil (Nat.lt_succ_self n)

theorem digitsToNat_snoc (l : List Char) (c : Char) :
    digitsToNat (l ++ [c]) = 10 * digitsToNat l + (c.toNat - 48) := by
  simp [digitsToNat, List.foldl_append]

theorem digitsToNat_natToDigitsF : ∀ {f n : ℕ}, n < f → digitsToNat (natToDigitsF f n) = n := by
  intro f
  induction f with
  | zero => intro n hf; omega
  | succ f ih =>
    intro n hf
    by_cases h10 : n < 10
    · simp [natToDigitsF, h10, digitsToNat, digitChar_toNat h10]
    · have hd : n / 10 < n := Nat.div_lt_self (by omega) (by omega)
      simp only [natToDigitsF, h10, if_false]
      rw [digitsToNat_snoc, ih (by omega), digitChar_toNat (Nat.mod_lt _ (by omega))]
      omega

theorem digitsToNat_natToDigits (n : ℕ) : digitsToNat (natToDigits n) = n :=
  digitsToNat_natToDigitsF (Nat.lt_succ_self n)

theorem digitsToNat_replicate_zero (k : ℕ) (l : List Char) :
    digitsToNat (List.replicate k '0' ++ l) = digitsToNat l := by
  induction k with
  | zero => simp
  | succ k ih =>
    simp only [List.replicate_succ, List.cons_append]
    show List.foldl _ (10 * 0 + ('0'.toNat - 48)) _ = _
    simpa [digitsToNat] using ih

theorem digitsToNat_padZeros (w : ℕ) (l : List Char) :
    digitsToNat (padZeros w l) = digitsToNat l :=
  digitsToNat_replicate_zero _ _

theorem padZeros_length {w : ℕ} {l : List Char} (h : l.length ≤ w) :
    (padZeros w l).length = w := by
  simp [padZeros]
  omega

theorem padZeros_all_digit {w : ℕ} {l : List Char} (h : ∀ c ∈ l, c.isDigit = true) :
    ∀ c ∈ padZeros w l, c.isDigit = true := by
  intro c hc
  rcases List.mem_append.mp hc with hc | hc
  · rcases List.eq_of_mem_replicate hc with rfl
    decide
  · exact h c hc

theorem natToDigitsF_length_le :
    ∀ {f n k : ℕ}, n < f → 1 ≤ k → n < 10 ^ k → (natToDigitsF f n).length ≤ k := by
  intro f
  induction f with
  | zero => intro n k hf; omega
  | succ f ih =>
    intro n k hf hk hp
    by_cases h10 : n < 10
    · simp only [natToDigitsF, h10, if_true, List.length_singleton]
      omega
    · have hd : n / 10 < n := Nat.div_lt_self (by omega) (by omega)
      have hk2 : 2 ≤ k := by
        by_contra hcon
        have hk1 : k = 1 := by omega
        subst hk1
        simp at hp
        omega
      have hdiv : n / 10 < 10 ^ (k - 1) := by
        rw [Nat.div_lt_iff_lt_mul (by omega)]
        calc n < 10 ^ k := hp
        _ = 10 ^ (k - 1) * 10 := by
            rw [← Nat.pow_succ]
            congr 1
            omega
      simp only [natToDigitsF, h10, if_false, List.length_append, List.length_singleton]
      have := ih (show n / 10 < f by omega) (show 1 ≤ k - 1 by omega) hdiv
      omega

theorem natToDigits_length_le {n k : ℕ} (hk : 1 ≤ k) (hp : n < 10 ^ k) :
    (natToDigits n).length ≤ k :=
  natToDigitsF_length_le (Nat.lt_succ_self n) hk hp

theorem splitOnChar_not_mem {sep : Char} :
    ∀ {l : List Char}, (∀ c ∈ l, (c == sep) = false) → splitOnChar sep l = [l] := by
  intro l
  induction l with
  | nil => intro _; rfl
  | cons c rest ih =>
    intro h
    have hrest := ih (fun x hx => h x (List.mem_cons_of_mem _ hx))
    simp [splitOnChar, hrest, h c (List.mem_cons_self _ _)]

theorem splitOnChar_ne_nil (sep : Char) : ∀ (l : List Char), splitOnChar sep l ≠ [] := by
  intro l
  induction l with
  | nil => simp [splitOnChar]
  | cons c rest ih =>
    simp only [splitOnChar]
    cases h : splitOnChar sep rest with
    | nil => simp
    | cons p ps =>
      by_cases hc : (c == sep) = true <;> simp [hc]

theorem splitOnChar_append {sep : Char} :
    ∀ (l1 l2 : List Char), (∀ c ∈ l1, (c == sep) = false) →
      splitOnChar sep (l1 ++ sep :: l2) = l1 :: splitOnChar sep l2 := by
  intro l1
  induction l1 with
  | nil =>
    intro l2 _
    simp only [List.nil_append, splitOnChar]
    cases h : splitOnChar sep l2 with
    | nil => exact absurd h (splitOnChar_ne_nil sep l2)
    | cons p ps => simp
  | cons c rest ih =>
    intro l2 h
    have hrest := ih l2 (fun x hx => h x (List.mem_cons_of_mem _ hx))
    simp [List.cons_append, splitOnChar, hrest, h c (List.mem_cons_self _ _)]

/-! ### Timecode lemmas -/

theorem seconds_to_time_shape (n : ℕ) :
    seconds_to_time n =
      padZeros 2 (natToDigits (n / 1000 / 3600)) ++ ':' ::
        (padZeros 2 (natToDigits (n / 1000 % 3600 / 60)) ++ ':' ::
          (padZeros 2 (natToDigits (n / 1000 % 60)) ++ ',' ::
            padZeros 3 (natToDigits (n % 1000)))) := rfl

theorem time_to_seconds_parts {p1 p2 p3 p4 : List Char}
    (h1 : ∀ c ∈ p1, c.isDigit = true) (h2 : ∀ c ∈ p2, c.isDigit = true)
    (h3 : ∀ c ∈ p3, c.isDigit = true) (h4 : ∀ c ∈ p4, c.isDigit = true) :
    time_to_seconds (p1 ++ ':' :: (p2 ++ ':' :: (p3 ++ ',' :: p4))) =
      digitsToNat p1 * 3600000 + digitsToNat p2 * 60000 +
        digitsToNat p3 * 1000 + digitsToNat p4 := by
  have e1 : splitOnChar ':' (p1 ++ ':' :: (p2 ++ ':' :: (p3 ++ ',' :: p4))) =
      p1 :: splitOnChar ':' (p2 ++ ':' :: (p3 ++ ',' :: p4)) :=
    splitOnChar_append _ _ (fun c hc => isDigit_ne_colon (h1 c hc))
  have e2 : splitOnChar ':' (p2 ++ ':' :: (p3 ++ ',' :: p4)) =
      p2 :: splitOnChar ':' (p3 ++ ',' :: p4) :=
    splitOnChar_append _ _ (fun c hc => isDigit_ne_colon (h2 c hc))
  have e3 : splitOnChar ':' (p3 ++ ',' :: p4) = [p3 ++ ',' :: p4] := by
    refine splitOnChar_not_mem ?_
    intro c hc
    rcases List.mem_append.mp hc with hc | hc
    · exact isDigit_ne_colon (h3 c hc)
    · rcases List.mem_cons.mp hc with rfl | hc
      · decide
      · exact isDigit_ne_colon (h4 c hc)
  have e4 : splitOnChar ',' (p3 ++ ',' :: p4) = p3 :: splitOnChar ',' p4 :=
    splitOnChar_append _ _ (fun c hc => isDigit_ne_comma (h3 c hc))
  have e5 : splitOnChar ',' p4 = [p4] :=
    splitOnChar_not_mem (fun c hc => isDigit_ne_comma (h4 c hc))
  simp [time_to_seconds, e1, e2, e3, e4, e5]

theorem time_to_seconds_seconds_to_time (n : ℕ) :
    time_to_seconds (seconds_to_time n) = n := by
  rw [seconds_to_time_shape,
    time_to_seconds_parts
      (padZeros_all_digit (natToDigits_all_digit _))
      (padZeros_all_digit (natToDigits_all_digit _))
      (padZeros_all_digit (natToDigits_all_digit _))
      (padZeros_all_digit (natToDigits_all_digit _)),
    digitsToNat_padZeros, digitsToNat_padZeros, digitsToNat_padZeros, digitsToNat_padZeros,
    digitsToNat_natToDigits, digitsToNat_natToDigits, digitsToNat_natToDigits,
    digitsToNat_natToDigits]
  omega

theorem validTimecode_of_parts {p1 p2 p3 p4 : List Char}
    (h1 : ∀ c ∈ p1, c.isDigit = true) (h2 : ∀ c ∈ p2, c.isDigit = true)
    (h3 : ∀ c ∈ p3, c.isDigit = true) (h4 : ∀ c ∈ p4, c.isDigit = true)
    (l1 : p1.length = 2) (l2 : p2.length = 2) (l3 : p3.length = 2) (l4 : p4.length = 3) :
    validTimecode (p1 ++ ':' :: (p2 ++ ':' :: (p3 ++ ',' :: p4))) = true := by
  rcases List.length_eq_two.mp l1 with ⟨a, b, rfl⟩
  rcases List.length_eq_two.mp l2 with ⟨d, e, rfl⟩
  rcases List.length_eq_two.mp l3 with ⟨g, h, rfl⟩
  rcases List.length_eq_three.mp l4 with ⟨j, k, m, rfl⟩
  simp_all [validTimecode]

theorem validTimecode_seconds_to_time {n : ℕ} (h : n < 360000000) :
    validTimecode (seconds_to_time n) = true := by
  rw [seconds_to_time_shape]
  refine validTimecode_of_parts
    (padZeros_all_digit (natToDigits_all_digit _))
    (padZeros_all_digit (natToDigits_all_digit _))
    (padZeros_all_digit (natToDigits_all_digit _))
    (padZeros_all_digit (natToDigits_all_digit _))
    ?_ ?_ ?_ ?_
  · exact padZeros_length (natToDigits_length_le (by omega) (by
      show n / 1000 / 3600 < 10 ^ 2
      omega))
  · exact padZeros_length (natToDigits_length_le (by omega) (by
      show n / 1000 % 3600 / 60 < 10 ^ 2
      omega))
  · exact padZeros_length (natToDigits_length_le (by omega) (by
      show n / 1000 % 60 < 10 ^ 2
      omega))
  · exact padZeros_length (natToDigits_length_le (by omega) (by
      show n % 1000 < 10 ^ 3
      omega))

/-! ### takeWhile, dropWhile and strip helpers -/

theorem takeWhile_all_append {p : Char → Bool} :
    ∀ (l1 l2 : List Char), (∀ c ∈ l1, p c = true) →
      (l1 ++ l2).takeWhile p = l1 ++ l2.takeWhile p := by
  intro l1
  induction l1 with
  | nil => intro l2 _; simp
  | cons c rest ih =>
    intro l2 h
    simp [List.takeWhile_cons, h c (List.mem_cons_self _ _),
      ih l2 (fun x hx => h x (List.mem_cons_of_mem _ hx))]

theorem dropWhile_all_append {p : Char → Bool} :
    ∀ (l1 l2 : List Char), (∀ c ∈ l1, p c = true) →
      (l1 ++ l2).dropWhile p = l2.dropWhile p := by
  intro l1
  induction l1 with
  | nil => intro l2 _; simp
  | cons c rest ih =>
    intro l2 h
    simp [List.dropWhile_cons, h c (List.mem_cons_self _ _),
      ih l2 (fun x hx => h x (List.mem_cons_of_mem _ hx))]

theorem takeWhile_cons_false {p : Char → Bool} {c : Char} (l : List Char) (h : p c = false) :
    (c :: l).takeWhile p = [] := by
  simp [List.takeWhile_cons, h]

theorem dropWhile_cons_false {p : Char → Bool} {c : Char} (l : List Char) (h : p c = false) :
    (c :: l).dropWhile p = c :: l := by
  simp [List.dropWhile_cons, h]

theorem length_dropWhile_le (p : Char → Bool) (l : List Char) :
    (l.dropWhile p).length ≤ l.length := by
  induction l with
  | nil => simp
  | cons c t ih =>
    by_cases h : p c = true <;> simp [List.dropWhile_cons, h] <;> omega

theorem length_dropWhile_lt {p : Char → Bool} {l : List Char}
    (h : (l.takeWhile p).isEmpty = false) : (l.dropWhile p).length < l.length := by
  have hsplit := List.takeWhile_append_dropWhile p l
  have hlen : (l.takeWhile p).length + (l.dropWhile p).length = l.length := by
    rw [← List.length_append, hsplit]
  have hne : (l.takeWhile p).length ≠ 0 := by
    intro hc
    rw [List.length_eq_zero.mp hc] at h
    simp at h
  omega

theorem dropWhile_eq_self_of_head {p : Char → Bool} {l : List Char}
    (h : ∀ c, l.head? = some c → p c = false) : l.dropWhile p = l := by
  cases l with
  | nil => rfl
  | cons c t => simp [List.dropWhile_cons, h c rfl]

/-- A good text payload: nonempty, does not begin or end with whitespace, and
contains no newline or carriage return. -/
def goodText (l : List Char) : Bool :=
  !l.isEmpty && !pySpace (l.headD ' ') && !pySpace (l.getLastD ' ') &&
    l.all (fun c => !(c == '\n') && !(c == '\r'))

theorem goodText_head {l : List Char} (h : goodText l = true) :
    ∀ c, l.head? = some c → pySpace c = false := by
  intro c hc
  cases l with
  | nil => simp at hc
  | cons a t =>
    simp only [List.head?_cons, Option.some.injEq] at hc
    subst hc
    simp [goodText, Bool.and_eq_true] at h
    exact h.1.1

theorem goodText_ne_newline {l : List Char} (h : goodText l = true) :
    ∀ c ∈ l, (c != '\n') = true := by
  intro c hc
  simp only [goodText, Bool.and_eq_true, List.all_eq_true] at h
  have := h.2 c hc
  simpa using this.1

theorem goodText_ne_cr {l : List Char} (h : goodText l = true) :
    ∀ c ∈ l, (c != '\r') = true := by
  intro c hc
  simp only [goodText, Bool.and_eq_true, List.all_eq_true] at h
  have := h.2 c hc
  simpa using this.2

theorem pyStrip_of_goodText {l : List Char} (h : goodText l = true) : pyStrip l = l := by
  have h1 : l.dropWhile pySpace = l := dropWhile_eq_self_of_head (goodText_head h)
  have hne : l ≠ [] := by
    intro hc
    subst hc
    simp [goodText] at h
  have h2 : l.reverse.dropWhile pySpace = l.reverse := by
    refine dropWhile_eq_self_of_head ?_
    intro c hc
    rw [List.head?_reverse] at hc
    have hlast : l.getLastD ' ' = c := by
      rw [List.getLastD_eq_getLast?, hc]
      rfl
    simp only [goodText, Bool.and_eq_true] at h
    rw [← hlast]
    simpa using h.1.2
  rw [pyStrip, h1, h2, List.reverse_reverse]

theorem filter_cr_of_goodText {l : List Char} (h : goodText l = true) :
    l.filter (fun c => c != '\r') = l :=
  List.filter_eq_self.mpr (goodText_ne_cr h)

/-! ### matchTimecode and matchEntry lemmas -/

theorem pySpace_newline : pySpace '\n' = true := by decide

theorem pySpace_space : pySpace ' ' = true := by decide

theorem matchTimecode_valid_append {t : List Char} (h : validTimecode t = true)
    (rest : List Char) : matchTimecode (t ++ rest) = some (t, rest) := by
  rcases t with _ | ⟨a, _ | ⟨b, _ | ⟨c, _ | ⟨d, _ | ⟨e, _ | ⟨f, _ | ⟨g, _ | ⟨h2, _ | ⟨i,
    _ | ⟨j, _ | ⟨k, _ | ⟨m, _ | ⟨x, t⟩⟩⟩⟩⟩⟩⟩⟩⟩⟩⟩⟩⟩ <;>
    simp_all [validTimecode, matchTimecode]

theorem matchTimecode_some : ∀ {L t r : List Char},
    matchTimecode L = some (t, r) → L = t ++ r ∧ validTimecode t = true := by
  intro L t r h
  rcases L with _ | ⟨a, _ | ⟨b, _ | ⟨c, _ | ⟨d, _ | ⟨e, _ | ⟨f, _ | ⟨g, _ | ⟨h2, _ | ⟨i,
    _ | ⟨j, _ | ⟨k, _ | ⟨m, L⟩⟩⟩⟩⟩⟩⟩⟩⟩⟩⟩⟩ <;>
    simp only [matchTimecode] at h <;>
    first
      | (split at h
         next hcond =>
           simp only [Option.some.injEq, Prod.mk.injEq] at h
           obtain ⟨ht, hr⟩ := h
           subst ht
           subst hr
           exact ⟨by simp, by simpa [validTimecode] using hcond⟩
         next => exact absurd h (by simp))
      | exact absurd h (by simp)

theorem validTimecode_head {t : List Char} (h : validTimecode t = true) :
    ∃ a r, t = a :: r ∧ a.isDigit = true := by
  rcases t with _ | ⟨a, _ | ⟨b, _ | ⟨c, _ | ⟨d, _ | ⟨e, _ | ⟨f, _ | ⟨g, _ | ⟨h2, _ | ⟨i,
    _ | ⟨j, _ | ⟨k, _ | ⟨m, _ | ⟨x, t⟩⟩⟩⟩⟩⟩⟩⟩⟩⟩⟩⟩⟩ <;>
    simp_all [validTimecode] <;> exact ⟨_, rfl, by simp_all⟩

theorem matchTimecode_length {L t r : List Char} (h : matchTimecode L = some (t, r)) :
    r.length ≤ L.length := by
  have := (matchTimecode_some h).1
  subst this
  simp

theorem matchEntry_nil : matchEntry [] = none := rfl

theorem matchEntry_not_digit {c : Char} (t : List Char) (h : c.isDigit = false) :
    matchEntry (c :: t) = none := by
  unfold matchEntry
  simp [List.takeWhile_cons, h]

theorem matchEntry_length : ∀ {l : List Char} {e : Entry} {r : List Char},
    matchEntry l = some (e, r) → r.length < l.length := by
  intro l e r h
  unfold matchEntry at h
  split at h
  · exact absurd h (by simp)
  next hds =>
  split at h
  · exact absurd h (by simp)
  next hws =>
  split at h
  next => exact absurd h (by simp)
  next t1 r3 hm1 =>
  split at h
  case _ r5b heq =>
    split at h
    next => exact absurd h (by simp)
    next t2 r7 hm3 =>
      split at h
      · exact absurd h (by simp)
      next h3 =>
        simp only [Option.some.injEq, Prod.mk.injEq] at h
        have hr : r = (r7.dropWhile pySpace).dropWhile (fun c => c != '\n') := h.2.symm
        have hlt : (l.dropWhile Char.isDigit).length < l.length := by
          refine length_dropWhile_lt ?_
          simpa using hds
        have c0 : r.length ≤ r7.length := by
          rw [hr]
          exact le_trans (length_dropWhile_le _ _) (length_dropWhile_le _ _)
        have c2 : r7.length ≤ (r5b.dropWhile pySpace).length := matchTimecode_length hm3
        have c3 : (r5b.dropWhile pySpace).length ≤ r5b.length := length_dropWhile_le _ _
        have c4 : r5b.length + 3 = (r3.dropWhile pySpace).length := by
          rw [heq]
          simp
        have c5 : (r3.dropWhile pySpace).length ≤ r3.length := length_dropWhile_le _ _
        have c6 : r3.length ≤ ((l.dropWhile Char.isDigit).dropWhile pySpace).length :=
          matchTimecode_length hm1
        have c7 : ((l.dropWhile Char.isDigit).dropWhile pySpace).length ≤
            (l.dropWhile Char.isDigit).length := length_dropWhile_le _ _
        omega
  case _ hne2 => exact absurd h (by simp)

/-! ### Blocks of a well-formed subtitle document -/

/-- One well-formed single-text-line subtitle block as raw strings: index
digits, two timecodes, one text line. -/
structure RawBlock where
  idx : List Char
  t1 : List Char
  t2 : List Char
  txt : List Char
deriving DecidableEq

/-- The characters of a block: the index line, the timecode line with the
spaced arrow, the text line, and the blank separator line. -/
def RawBlock.chars (b : RawBlock) : List Char :=
  b.idx ++ '\n' :: (b.t1 ++ ' ' :: '-' :: '-' :: '>' :: ' ' ::
    (b.t2 ++ '\n' :: (b.txt ++ ['\n', '\n'])))

/-- Well-formedness of a single-line block: nonempty digit index, valid
timecodes, good text line. -/
def GoodBlock (b : RawBlock) : Bool :=
  !b.idx.isEmpty && b.idx.all Char.isDigit && validTimecode b.t1 &&
    validTimecode b.t2 && goodText b.txt

/-- The entry a well-formed block denotes. -/
def entryOf (b : RawBlock) : Entry :=
  ⟨digitsToNat b.idx, b.t1, b.t2, b.txt⟩

theorem matchEntry_block {b : RawBlock} (hb : GoodBlock b = true) (rest : List Char) :
    matchEntry (b.chars ++ rest) = some (entryOf b, '\n' :: '\n' :: rest) := by
  obtain ⟨idx, t1, t2, txt⟩ := b
  simp only [GoodBlock, Bool.and_eq_true, Bool.not_eq_true', List.isEmpty_eq_false,
    List.all_eq_true] at hb
  obtain ⟨⟨⟨⟨hne', hdig⟩, ht1⟩, ht2⟩, htxt⟩ := hb
  obtain ⟨a1, rt1, et1, ha1⟩ := validTimecode_head ht1
  obtain ⟨a2, rt2, et2, ha2⟩ := validTimecode_head ht2
  obtain ⟨tx0, txr, htx0⟩ : ∃ c r, txt = c :: r := by
    cases htxt2 : txt with
    | nil => rw [htxt2] at htxt; simp [goodText] at htxt
    | cons c r => exact ⟨c, r, rfl⟩
  have htxhead : pySpace tx0 = false := by
    apply goodText_head htxt
    rw [htx0]
    rfl
  have e0 : RawBlock.chars ⟨idx, t1, t2, txt⟩ ++ rest =
      idx ++ '\n' :: (t1 ++ ' ' :: '-' :: '-' :: '>' :: ' ' ::
        (t2 ++ '\n' :: (txt ++ '\n' :: '\n' :: rest))) := by
    simp [RawBlock.chars]
  rw [e0]
  have h1 : (idx ++ '\n' :: (t1 ++ ' ' :: '-' :: '-' :: '>' :: ' ' ::
      (t2 ++ '\n' :: (txt ++ '\n' :: '\n' :: rest)))).takeWhile Char.isDigit = idx := by
    rw [takeWhile_all_append _ _ hdig, takeWhile_cons_false _ (by decide)]
    simp
  have h2 : (idx ++ '\n' :: (t1 ++ ' ' :: '-' :: '-' :: '>' :: ' ' ::
      (t2 ++ '\n' :: (txt ++ '\n' :: '\n' :: rest)))).dropWhile Char.isDigit =
      '\n' :: (t1 ++ ' ' :: '-' :: '-' :: '>' :: ' ' ::
        (t2 ++ '\n' :: (txt ++ '\n' :: '\n' :: rest))) := by
    rw [dropWhile_all_append _ _ hdig, dropWhile_cons_false _ (by decide)]
  have h4 : (('\n' :: (t1 ++ ' ' :: '-' :: '-' :: '>' :: ' ' ::
      (t2 ++ '\n' :: (txt ++ '\n' :: '\n' :: rest))) : List Char).dropWhile pySpace) =
      t1 ++ ' ' :: '-' :: '-' :: '>' :: ' ' ::
        (t2 ++ '\n' :: (txt ++ '\n' :: '\n' :: rest)) := by
    rw [List.dropWhile_cons]
    simp only [pySpace_newline, if_true]
    rw [et1]
    simp only [List.cons_append]
    exact dropWhile_cons_false _ (pySpace_of_isDigit ha1)
  have h5 : matchTimecode (t1 ++ ' ' :: '-' :: '-' :: '>' :: ' ' ::
      (t2 ++ '\n' :: (txt ++ '\n' :: '\n' :: rest))) =
      some (t1, ' ' :: '-' :: '-' :: '>' :: ' ' ::
        (t2 ++ '\n' :: (txt ++ '\n' :: '\n' :: rest))) :=
    matchTimecode_valid_append ht1 _
  have h6 : ((' ' :: '-' :: '-' :: '>' :: ' ' ::
      (t2 ++ '\n' :: (txt ++ '\n' :: '\n' :: rest)) : List Char).dropWhile pySpace) =
      '-' :: '-' :: '>' :: ' ' :: (t2 ++ '\n' :: (txt ++ '\n' :: '\n' :: rest)) := by
    rw [List.dropWhile_cons]
    simp only [pySpace_space, if_true]
    exact dropWhile_cons_false _ (by decide)
  have h7 : ((' ' :: (t2 ++ '\n' :: (txt ++ '\n' :: '\n' :: rest)) :
      List Char).dropWhile pySpace) = t2 ++ '\n' :: (txt ++ '\n' :: '\n' :: rest) := by
    rw [List.dropWhile_cons]
    simp only [pySpace_space, if_true]
    rw [et2]
    simp only [List.cons_append]
    exact dropWhile_cons_false _ (pySpace_of_isDigit ha2)
  have h8 : matchTimecode (t2 ++ '\n' :: (txt ++ '\n' :: '\n' :: rest)) =
      some (t2, '\n' :: (txt ++ '\n' :: '\n' :: rest)) :=
    matchTimecode_valid_append ht2 _
  have h10 : (('\n' :: (txt ++ '\n' :: '\n' :: rest) : List Char).dropWhile pySpace) =
      txt ++ '\n' :: '\n' :: rest := by
    rw [List.dropWhile_cons]
    simp only [pySpace_newline, if_true]
    rw [htx0]
    simp only [List.cons_append]
    exact dropWhile_cons_false _ htxhead
  have h11 : ((txt ++ '\n' :: '\n' :: rest).takeWhile (fun c => c != '\n')) = txt := by
    rw [takeWhile_all_append _ _ (goodText_ne_newline htxt), takeWhile_cons_false _ (by decide)]
    simp
  have h12 : ((txt ++ '\n' :: '\n' :: rest).dropWhile (fun c => c != '\n')) =
      '\n' :: '\n' :: rest := by
    rw [dropWhile_all_append _ _ (goodText_ne_newline htxt), dropWhile_cons_false _ (by decide)]
  unfold matchEntry
  rw [h1, h2, h4, h5]
  have hie : idx.isEmpty = false := List.isEmpty_eq_false.mpr hne'
  simp only [hie, Bool.false_eq_true, if_false]
  rw [show (('\n' :: (t1 ++ ' ' :: '-' :: '-' :: '>' :: ' ' ::
      (t2 ++ '\n' :: (txt ++ '\n' :: '\n' :: rest))) : List Char).takeWhile pySpace).isEmpty =
      false by
    rw [List.takeWhile_cons]
    simp [pySpace_newline]]
  simp only [Bool.false_eq_true, if_false, h6]
  rw [h7, h8]
  simp only []
  rw [show (('\n' :: (txt ++ '\n' :: '\n' :: rest) : List Char).takeWhile pySpace).isEmpty =
      false by
    rw [List.takeWhile_cons]
    simp [pySpace_newline]]
  simp only [Bool.false_eq_true, if_false, h10, h11, h12]
  rw [pyStrip_of_goodText htxt, filter_cr_of_goodText htxt]
  rfl


/-! ### Parse loop lemmas -/

theorem parseLoopF_congr : ∀ {f1 f2 : ℕ} {l : List Char},
    l.length ≤ f1 → l.length ≤ f2 → parseLoopF f1 l = parseLoopF f2 l := by
  intro f1
  induction f1 with
  | zero =>
    intro f2 l h1 h2
    have : l = [] := List.length_eq_zero.mp (Nat.le_zero.mp h1)
    subst this
    cases f2 <;> rfl
  | succ f ih =>
    intro f2 l h1 h2
    cases l with
    | nil => cases f2 <;> rfl
    | cons c t =>
      rcases f2 with _ | f2
      · simp at h2
      · cases hm : matchEntry (c :: t) with
        | some er =>
          obtain ⟨e, r⟩ := er
          have hr := matchEntry_length hm
          simp only [List.length_cons] at h1 h2 hr
          simp only [parseLoopF, hm]
          congr 1
          exact ih (by omega) (by omega)
        | none =>
          simp only [List.length_cons] at h1 h2
          simp only [parseLoopF, hm]
          exact ih (by omega) (by omega)

theorem parseLoopF_eq_parse_srt {f : ℕ} {l : List Char} (h : l.length ≤ f) :
    parseLoopF f l = parse_srt l :=
  parseLoopF_congr h le_rfl

theorem parse_srt_cons_some {l : List Char} {e : Entry} {r : List Char}
    (h : matchEntry l = some (e, r)) : parse_srt l = e :: parse_srt r := by
  cases l with
  | nil => exact absurd h (by simp [matchEntry_nil])
  | cons c t =>
    have hr := matchEntry_length h
    simp only [List.length_cons] at hr
    show parseLoopF (t.length + 1) (c :: t) = _
    simp only [parseLoopF, h]
    rw [parseLoopF_eq_parse_srt (by omega)]

theorem parse_srt_cons_none {c : Char} {t : List Char}
    (h : matchEntry (c :: t) = none) : parse_srt (c :: t) = parse_srt t := by
  show parseLoopF (t.length + 1) (c :: t) = _
  simp only [parseLoopF, h]
  rfl

/-- Parsing a concatenation of well-formed single-line blocks recovers exactly
one entry per block. -/
theorem parse_srt_flatten_blocks : ∀ (bs : List RawBlock),
    (∀ b ∈ bs, GoodBlock b = true) →
    parse_srt ((bs.map RawBlock.chars).flatten) = bs.map entryOf := by
  intro bs
  induction bs with
  | nil => intro _; rfl
  | cons b bs ih =>
    intro h
    have hb := h b (List.mem_cons_self _ _)
    have hdoc : (((b :: bs).map RawBlock.chars).flatten : List Char) =
        b.chars ++ ((bs.map RawBlock.chars).flatten) := by
      simp
    rw [hdoc, parse_srt_cons_some (matchEntry_block hb _),
      parse_srt_cons_none (matchEntry_not_digit _ (by decide)),
      parse_srt_cons_none (matchEntry_not_digit _ (by decide)),
      ih (fun x hx => h x (List.mem_cons_of_mem _ hx))]
    rfl

/-! ### Sorting lemmas -/

/-- Output order of the sort: ascending start-time keys. -/
def startLE (a b : Entry) : Prop :=
  time_to_seconds a.start ≤ time_to_seconds b.start

/-- The guarantee of the overlap repair between adjacent entries: the later
entry starts no earlier than the earlier entry ends. -/
def gapLE (a b : Entry) : Prop :=
  time_to_seconds a.stop ≤ time_to_seconds b.start

theorem insertSorted_perm (e : Entry) :
    ∀ (l : List Entry), (insertSorted e l).Perm (e :: l) := by
  intro l
  induction l with
  | nil => rfl
  | cons x xs ih =>
    by_cases h : time_to_seconds x.start < time_to_seconds e.start
    · simp only [insertSorted, h, if_true]
      exact (ih.cons x).trans (List.Perm.swap e x xs)
    · simp [insertSorted, h]

theorem sortEntries_perm : ∀ (l : List Entry), (sortEntries l).Perm l := by
  intro l
  induction l with
  | nil => rfl
  | cons e rest ih =>
    exact (insertSorted_perm e (sortEntries rest)).trans (ih.cons e)

theorem insertSorted_pairwise {e : Entry} :
    ∀ {l : List Entry}, l.Pairwise startLE → (insertSorted e l).Pairwise startLE := by
  intro l
  induction l with
  | nil => intro _; simp [insertSorted, List.pairwise_cons]
  | cons x xs ih =>
    intro h
    rcases List.pairwise_cons.mp h with ⟨hx, hxs⟩
    by_cases hlt : time_to_seconds x.start < time_to_seconds e.start
    · simp only [insertSorted, hlt, if_true]
      refine List.pairwise_cons.mpr ⟨?_, ih hxs⟩
      intro y hy
      have : y ∈ e :: xs := (insertSorted_perm e xs).mem_iff.mp hy
      rcases List.mem_cons.mp this with rfl | hy'
      · exact le_of_lt hlt
      · exact hx y hy'
    · simp only [insertSorted, hlt, if_false]
      refine List.pairwise_cons.mpr ⟨?_, h⟩
      intro y hy
      rcases List.mem_cons.mp hy with rfl | hy'
      · exact Nat.le_of_not_lt hlt
      · exact le_trans (Nat.le_of_not_lt hlt) (hx y hy')

theorem sortEntries_pairwise : ∀ (l : List Entry), (sortEntries l).Pairwise startLE := by
  intro l
  induction l with
  | nil => simp [sortEntries]
  | cons e rest ih => exact insertSorted_pairwise ih

theorem insertSorted_eq_cons {e : Entry} {l : List Entry}
    (h : ∀ y ∈ l, startLE e y) : insertSorted e l = e :: l := by
  cases l with
  | nil => rfl
  | cons x xs =>
    have : ¬ time_to_seconds x.start < time_to_seconds e.start :=
      Nat.not_lt.mpr (h x (List.mem_cons_self _ _))
    simp [insertSorted, this]

theorem sortEntries_eq_self : ∀ {l : List Entry}, l.Pairwise startLE → sortEntries l = l := by
  intro l
  induction l with
  | nil => intro _; rfl
  | cons e rest ih =>
    intro h
    rcases List.pairwise_cons.mp h with ⟨he, hrest⟩
    show insertSorted e (sortEntries rest) = e :: rest
    rw [ih hrest]
    exact insertSorted_eq_cons he

/-! ### Repair lemmas -/

theorem repairOne_text (prev c : Entry) : (repairOne prev c).text = c.text := by
  unfold repairOne
  split_ifs <;> rfl

theorem repairOne_index (prev c : Entry) : (repairOne prev c).index = c.index := by
  unfold repairOne
  split_ifs <;> rfl

theorem repairOne_not_pushed {prev c : Entry}
    (h : ¬ time_to_seconds c.start < time_to_seconds prev.stop) : repairOne prev c = c := by
  simp [repairOne, h]

theorem repairOne_pushed_start {prev c : Entry}
    (h : time_to_seconds c.start < time_to_seconds prev.stop) :
    time_to_seconds (repairOne prev c).start = time_to_seconds prev.stop + 1 := by
  unfold repairOne
  simp only [h, if_true]
  split_ifs <;> simp [time_to_seconds_seconds_to_time]

theorem repairOne_start_ge (prev c : Entry) :
    time_to_seconds prev.stop ≤ time_to_seconds (repairOne prev c).start := by
  by_cases h : time_to_seconds c.start < time_to_seconds prev.stop
  · rw [repairOne_pushed_start h]
    omega
  · rw [repairOne_not_pushed h]
    omega

theorem repairOne_pushed_stop {prev c : Entry}
    (h : time_to_seconds c.start < time_to_seconds prev.stop) :
    time_to_seconds (repairOne prev c).start < time_to_seconds (repairOne prev c).stop := by
  unfold repairOne
  simp only [h, if_true]
  by_cases h2 : time_to_seconds c.stop ≤ time_to_seconds prev.stop + 1
  · simp [h2, time_to_seconds_seconds_to_time]
  · simp only [h2, if_false]
    simp [time_to_seconds_seconds_to_time]
    omega

theorem repairFrom_chain (prev : Entry) :
    ∀ (l : List Entry), List.Chain gapLE prev (repairFrom prev l) := by
  intro l
  induction l generalizing prev with
  | nil => exact List.Chain.nil
  | cons c rest ih =>
    exact List.Chain.cons (repairOne_start_ge prev c) (ih (repairOne prev c))

theorem repairOverlaps_chain' (l : List Entry) : List.Chain' gapLE (repairOverlaps l) := by
  cases l with
  | nil => simp [repairOverlaps]
  | cons c rest => exact repairFrom_chain c rest

theorem repairFrom_noop {prev : Entry} :
    ∀ {l : List Entry}, List.Chain gapLE prev l → repairFrom prev l = l := by
  intro l
  induction l generalizing prev with
  | nil => intro _; rfl
  | cons c rest ih =>
    intro h
    rcases h with _ | ⟨hpc, hrest⟩
    have hnp : ¬ time_to_seconds c.start < time_to_seconds prev.stop := Nat.not_lt.mpr hpc
    show repairOne prev c :: repairFrom (repairOne prev c) rest = c :: rest
    rw [repairOne_not_pushed hnp, ih hrest]

theorem repairOverlaps_noop {l : List Entry} (h : List.Chain' gapLE l) :
    repairOverlaps l = l := by
  cases l with
  | nil => rfl
  | cons c rest =>
    show c :: repairFrom c rest = c :: rest
    rw [repairFrom_noop h]

theorem repairFrom_sorted :
    ∀ {l : List Entry} {prev : Entry}, l.Pairwise startLE →
      ((∀ d ∈ l, time_to_seconds prev.start ≤ time_to_seconds d.start) ∨
        time_to_seconds prev.start < time_to_seconds prev.stop) →
      List.Chain startLE prev (repairFrom prev l) := by
  intro l
  induction l with
  | nil => intro prev _ _; exact List.Chain.nil
  | cons c rest ih =>
    intro prev hl hp
    rcases List.pairwise_cons.mp hl with ⟨hc, hrest⟩
    have h1 : startLE prev (repairOne prev c) := by
      by_cases hpush : time_to_seconds c.start < time_to_seconds prev.stop
      · rw [startLE, repairOne_pushed_start hpush]
        rcases hp with hfor | hlt
        · have := hfor c (List.mem_cons_self _ _)
          omega
        · omega
      · rw [repairOne_not_pushed hpush]
        rcases hp with hfor | hlt
        · exact hfor c (List.mem_cons_self _ _)
        · show time_to_seconds prev.start ≤ time_to_seconds c.start
          omega
    have h2 : (∀ d ∈ rest, time_to_seconds (repairOne prev c).start ≤
        time_to_seconds d.start) ∨
        time_to_seconds (repairOne prev c).start < time_to_seconds (repairOne prev c).stop := by
      by_cases hpush : time_to_seconds c.start < time_to_seconds prev.stop
      · exact Or.inr (repairOne_pushed_stop hpush)
      · rw [repairOne_not_pushed hpush]
        exact Or.inl hc
    exact List.Chain.cons h1 (ih hrest h2)

theorem repairOverlaps_pairwise {l : List Entry} (h : l.Pairwise startLE) :
    (repairOverlaps l).Pairwise startLE := by
  cases l with
  | nil => simp [repairOverlaps]
  | cons c rest =>
    rcases List.pairwise_cons.mp h with ⟨hc, hrest⟩
    have hchain : List.Chain startLE c (repairFrom c rest) :=
      repairFrom_sorted hrest (Or.inl hc)
    haveI : IsTrans Entry startLE := ⟨fun a b c h1 h2 => le_trans h1 h2⟩
    exact List.chain'_iff_pairwise.mp hchain

theorem repairFrom_mem_text :
    ∀ {l : List Entry} {prev : Entry} (x : Entry), x ∈ repairFrom prev l →
      ∃ c ∈ l, x.text = c.text := by
  intro l
  induction l with
  | nil => intro prev x hx; simp [repairFrom] at hx
  | cons c rest ih =>
    intro prev x hx
    rcases List.mem_cons.mp hx with rfl | hx'
    · exact ⟨c, List.mem_cons_self _ _, repairOne_text prev c⟩
    · rcases ih x hx' with ⟨d, hd, he⟩
      exact ⟨d, List.mem_cons_of_mem _ hd, he⟩

theorem repairOverlaps_mem_text {l : List Entry} (x : Entry) (hx : x ∈ repairOverlaps l) :
    ∃ c ∈ l, x.text = c.text := by
  cases l with
  | nil => simp [repairOverlaps] at hx
  | cons c rest =>
    rcases List.mem_cons.mp hx with rfl | hx'
    · exact ⟨x, List.mem_cons_self _ _, rfl⟩
    · rcases repairFrom_mem_text x hx' with ⟨d, hd, he⟩
      exact ⟨d, List.mem_cons_of_mem _ hd, he⟩

theorem repairFrom_map_text :
    ∀ (l : List Entry) (prev : Entry),
      (repairFrom prev l).map Entry.text = l.map Entry.text := by
  intro l
  induction l with
  | nil => intro _; rfl
  | cons c rest ih =>
    intro prev
    show (repairOne prev c).text :: (repairFrom (repairOne prev c) rest).map Entry.text = _
    rw [repairOne_text, ih]
    rfl

theorem repairOverlaps_map_text (l : List Entry) :
    (repairOverlaps l).map Entry.text = l.map Entry.text := by
  cases l with
  | nil => rfl
  | cons c rest =>
    show c.text :: (repairFrom c rest).map Entry.text = _
    rw [repairFrom_map_text]
    rfl

theorem repairOne_shape (prev c : Entry) :
    ((repairOne prev c).start = c.start ∨
      ∃ n, (repairOne prev c).start = seconds_to_time n) ∧
    ((repairOne prev c).stop = c.stop ∨
      ∃ n, (repairOne prev c).stop = seconds_to_time n) := by
  unfold repairOne
  split_ifs with h1 h2
  · exact ⟨Or.inr ⟨_, rfl⟩, Or.inr ⟨_, rfl⟩⟩
  · exact ⟨Or.inr ⟨_, rfl⟩, Or.inl rfl⟩
  · exact ⟨Or.inl rfl, Or.inl rfl⟩

theorem repairFrom_shape :
    ∀ {l : List Entry} {prev : Entry} (x : Entry), x ∈ repairFrom prev l →
      ((∃ c ∈ l, x.start = c.start) ∨ ∃ n, x.start = seconds_to_time n) ∧
      ((∃ c ∈ l, x.stop = c.stop) ∨ ∃ n, x.stop = seconds_to_time n) := by
  intro l
  induction l with
  | nil => intro prev x hx; simp [repairFrom] at hx
  | cons c rest ih =>
    intro prev x hx
    rcases List.mem_cons.mp hx with rfl | hx'
    · rcases repairOne_shape prev c with ⟨hs, ht⟩
      constructor
      · rcases hs with hs | hs
        · exact Or.inl ⟨c, List.mem_cons_self _ _, hs⟩
        · exact Or.inr hs
      · rcases ht with ht | ht
        · exact Or.inl ⟨c, List.mem_cons_self _ _, ht⟩
        · exact Or.inr ht
    · rcases ih x hx' with ⟨hs, ht⟩
      constructor
      · rcases hs with ⟨d, hd, he⟩ | hs
        · exact Or.inl ⟨d, List.mem_cons_of_mem _ hd, he⟩
        · exact Or.inr hs
      · rcases ht with ⟨d, hd, he⟩ | ht
        · exact Or.inl ⟨d, List.mem_cons_of_mem _ hd, he⟩
        · exact Or.inr ht

theorem repairOne_stop_le (prev c : Entry) :
    time_to_seconds (repairOne prev c).stop ≤
      max (time_to_seconds c.stop) (time_to_seconds prev.stop + 2001) := by
  unfold repairOne
  split_ifs with h1 h2
  · show time_to_seconds (seconds_to_time (time_to_seconds prev.stop + 1 + 2000)) ≤ _
    rw [time_to_seconds_seconds_to_time]
    omega
  · exact le_max_left _ _
  · exact le_max_left _ _

theorem repairFrom_bound :
    ∀ {l : List Entry} {prev : Entry} {B : ℕ},
      time_to_seconds prev.start ≤ B → time_to_seconds prev.stop ≤ B →
      (∀ c ∈ l, time_to_seconds c.start ≤ B ∧ time_to_seconds c.stop ≤ B) →
      ∀ x ∈ repairFrom prev l,
        time_to_seconds x.start ≤ B + 2001 * l.length ∧
          time_to_seconds x.stop ≤ B + 2001 * l.length := by
  intro l
  induction l with
  | nil => intro prev B _ _ _ x hx; simp [repairFrom] at hx
  | cons c rest ih =>
    intro prev B hps hpe hall x hx
    have hcB := hall c (List.mem_cons_self _ _)
    have hc' : time_to_seconds (repairOne prev c).start ≤ B + 2001 ∧
        time_to_seconds (repairOne prev c).stop ≤ B + 2001 := by
      by_cases hpush : time_to_seconds c.start < time_to_seconds prev.stop
      · constructor
        · rw [repairOne_pushed_start hpush]
          omega
        · have hm := repairOne_stop_le prev c
          exact le_trans hm (max_le (by omega) (by omega))
      · rw [repairOne_not_pushed hpush]
        omega
    rcases List.mem_cons.mp hx with rfl | hx'
    · simp only [List.length_cons]
      omega
    · have := @ih (repairOne prev c) (B + 2001) hc'.1 hc'.2
        (fun d hd => ⟨le_trans (hall d (List.mem_cons_of_mem _ hd)).1 (by omega),
          le_trans (hall d (List.mem_cons_of_mem _ hd)).2 (by omega)⟩) x hx'
      simp only [List.length_cons]
      omega

/-! ### Renumbering lemmas -/

theorem renumberFrom_map_text :
    ∀ (l : List Entry) (n : ℕ), (renumberFrom n l).map Entry.text = l.map Entry.text := by
  intro l
  induction l with
  | nil => intro _; rfl
  | cons e rest ih => intro n; simp [renumberFrom, ih]

theorem renumberFrom_mem :
    ∀ {l : List Entry} {n : ℕ} (y : Entry), y ∈ renumberFrom n l →
      ∃ x ∈ l, y.start = x.start ∧ y.stop = x.stop ∧ y.text = x.text := by
  intro l
  induction l with
  | nil => intro n y hy; simp [renumberFrom] at hy
  | cons e rest ih =>
    intro n y hy
    rcases List.mem_cons.mp hy with rfl | hy'
    · exact ⟨e, List.mem_cons_self _ _, rfl, rfl, rfl⟩
    · rcases ih y hy' with ⟨x, hx, h1, h2, h3⟩
      exact ⟨x, List.mem_cons_of_mem _ hx, h1, h2, h3⟩

theorem renumberFrom_pairwise {R : Entry → Entry → Prop}
    (hR : ∀ (a b : Entry) (i j : ℕ), R a b → R { a with index := i } { b with index := j }) :
    ∀ {l : List Entry} {n : ℕ}, l.Pairwise R → (renumberFrom n l).Pairwise R := by
  intro l
  induction l with
  | nil => intro n _; simp [renumberFrom]
  | cons e rest ih =>
    intro n h
    rcases List.pairwise_cons.mp h with ⟨he, hrest⟩
    refine List.pairwise_cons.mpr ⟨?_, ih hrest⟩
    intro y hy
    rcases renumberFrom_mem y hy with ⟨x, hx, h1, h2, h3⟩
    have := hR e x n y.index (he x hx)
    have hy2 : y = { x with index := y.index } := by
      cases y
      cases x
      simp_all
    rw [hy2]
    exact this

theorem renumberFrom_chain_aux {R : Entry → Entry → Prop}
    (hR : ∀ (a b : Entry) (i j : ℕ), R a b → R { a with index := i } { b with index := j }) :
    ∀ {l : List Entry} {prev : Entry} {n m : ℕ}, List.Chain R prev l →
      List.Chain R { prev with index := m } (renumberFrom n l) := by
  intro l
  induction l with
  | nil => intro prev n m _; exact List.Chain.nil
  | cons c rest ih =>
    intro prev n m h
    rcases h with _ | ⟨hpc, hrest⟩
    exact List.Chain.cons (hR prev c m n hpc) (ih hrest)

theorem renumberFrom_chain' {R : Entry → Entry → Prop}
    (hR : ∀ (a b : Entry) (i j : ℕ), R a b → R { a with index := i } { b with index := j }) :
    ∀ {l : List Entry} {n : ℕ}, List.Chain' R l → List.Chain' R (renumberFrom n l) := by
  intro l n h
  cases l with
  | nil => simp [renumberFrom]
  | cons e rest =>
    have h' : List.Chain R e rest := h
    show List.Chain R { e with index := n } (renumberFrom (n + 1) rest)
    exact renumberFrom_chain_aux hR h'

theorem renumberFrom_renumberFrom :
    ∀ (l : List Entry) (n : ℕ), renumberFrom n (renumberFrom n l) = renumberFrom n l := by
  intro l
  induction l with
  | nil => intro _; rfl
  | cons e rest ih =>
    intro n
    simp [renumberFrom, ih]

/-! ### Serialization as blocks -/

/-- The block of characters `serializeEntry` produces, as a `RawBlock`. -/
def toBlock (e : Entry) : RawBlock :=
  ⟨natToDigits e.index, e.start, e.stop, e.text⟩

theorem serializeEntry_eq_chars (e : Entry) : serializeEntry e = (toBlock e).chars := rfl

theorem entryOf_toBlock (e : Entry) : entryOf (toBlock e) = e := by
  cases e
  simp [entryOf, toBlock, digitsToNat_natToDigits]

theorem GoodBlock_toBlock {e : Entry} (h1 : validTimecode e.start = true)
    (h2 : validTimecode e.stop = true) (h3 : goodText e.text = true) :
    GoodBlock (toBlock e) = true := by
  simp only [GoodBlock, toBlock, Bool.and_eq_true, Bool.not_eq_true',
    List.isEmpty_eq_false, List.all_eq_true]
  exact ⟨⟨⟨⟨natToDigits_ne_nil _, natToDigits_all_digit _⟩, h1⟩, h2⟩, h3⟩

theorem repairOverlaps_length (l : List Entry) : (repairOverlaps l).length = l.length := by
  have := congrArg List.length (repairOverlaps_map_text l)
  simpa using this

theorem renumberFrom_length (l : List Entry) (n : ℕ) :
    (renumberFrom n l).length = l.length := by
  have := congrArg List.length (renumberFrom_map_text l n)
  simpa using this

/-- The pipeline `format_srt` applies before serializing: sort, repair
overlaps, renumber from 1.  `format_srt entries` is the concatenation of the
serializations of exactly these entries, in this order. -/
def correctedEntries (entries : List Entry) : List Entry :=
  renumberFrom 1 (repairOverlaps (sortEntries entries))

theorem format_srt_eq_corrected (entries : List Entry) :
    format_srt entries = ((correctedEntries entries).map serializeEntry).flatten := rfl

/-- Everything the idempotence argument needs about the list `format_srt`
serializes: valid timecodes, good texts, sortedness, and repaired gaps. -/
theorem correctedEntries_facts (entries : List Entry)
    (hval : ∀ e ∈ entries, validTimecode e.start = true ∧ validTimecode e.stop = true)
    (htext : ∀ e ∈ entries, goodText e.text = true)
    (hbound : ∀ x ∈ repairOverlaps (sortEntries entries),
      time_to_seconds x.start < 360000000 ∧ time_to_seconds x.stop < 360000000) :
    (∀ y ∈ correctedEntries entries,
      validTimecode y.start = true ∧ validTimecode y.stop = true ∧ goodText y.text = true) ∧
    (correctedEntries entries).Pairwise startLE ∧
    List.Chain' gapLE (correctedEntries entries) ∧
    (correctedEntries entries).length = entries.length := by
  have hsortmem : ∀ e ∈ sortEntries entries, e ∈ entries := by
    intro e he
    exact (sortEntries_perm entries).mem_iff.mp he
  have hrepval : ∀ x ∈ repairOverlaps (sortEntries entries),
      validTimecode x.start = true ∧ validTimecode x.stop = true := by
    intro x hx
    cases hs : sortEntries entries with
    | nil => rw [hs] at hx; simp [repairOverlaps] at hx
    | cons c rest =>
      rw [hs] at hx
      rcases List.mem_cons.mp hx with rfl | hx'
      · have : x ∈ entries := hsortmem x (by rw [hs]; exact List.mem_cons_self _ _)
        exact hval x this
      · have hbx := hbound x (by rw [hs]; exact hx)
        rcases repairFrom_shape x hx' with ⟨hstart, hstop⟩
        constructor
        · rcases hstart with ⟨d, hd, he⟩ | ⟨n, he⟩
          · rw [he]
            exact (hval d (hsortmem d (by rw [hs]; exact List.mem_cons_of_mem _ hd))).1
          · rw [he]
            refine validTimecode_seconds_to_time ?_
            have : time_to_seconds x.start = n := by rw [he, time_to_seconds_seconds_to_time]
            omega
        · rcases hstop with ⟨d, hd, he⟩ | ⟨n, he⟩
          · rw [he]
            exact (hval d (hsortmem d (by rw [hs]; exact List.mem_cons_of_mem _ hd))).2
          · rw [he]
            refine validTimecode_seconds_to_time ?_
            have : time_to_seconds x.stop = n := by rw [he, time_to_seconds_seconds_to_time]
            omega
  have hreptext : ∀ x ∈ repairOverlaps (sortEntries entries), goodText x.text = true := by
    intro x hx
    rcases repairOverlaps_mem_text x hx with ⟨c, hc, he⟩
    rw [he]
    exact htext c (hsortmem c hc)
  have hindexR : ∀ (a b : Entry) (i j : ℕ), startLE a b →
      startLE { a with index := i } { b with index := j } := fun a b i j h => h
  have hindexG : ∀ (a b : Entry) (i j : ℕ), gapLE a b →
      gapLE { a with index := i } { b with index := j } := fun a b i j h => h
  refine ⟨?_, ?_, ?_, ?_⟩
  · intro y hy
    rcases renumberFrom_mem y hy with ⟨x, hx, h1, h2, h3⟩
    rw [h1, h2, h3]
    exact ⟨(hrepval x hx).1, (hrepval x hx).2, hreptext x hx⟩
  · exact renumberFrom_pairwise hindexR (repairOverlaps_pairwise (sortEntries_pairwise entries))
  · exact renumberFrom_chain' hindexG (repairOverlaps_chain' (sortEntries entries))
  · rw [correctedEntries, renumberFrom_length, repairOverlaps_length,
      (sortEntries_perm entries).length_eq]

/-- Applying the sort, repair, renumber, serialize pipeline to a list that is
already sorted, repaired and renumbered from 1 reproduces it: the pipeline is
a fixed point on its own output. -/
theorem correctedEntries_fixed (out : List Entry)
    (hpw : out.Pairwise startLE) (hch : List.Chain' gapLE out)
    (hren : renumberFrom 1 out = out) : correctedEntries out = out := by
  rw [correctedEntries, sortEntries_eq_self hpw, repairOverlaps_noop hch, hren]

/-! ### Transcriber (`processor/transcriber.py`)

`split_audio` is embedded as a function of the probed duration `D` and the
chunk length `L` (both in seconds, as exact rationals), producing the chunk
boundaries it cuts; the ffmpeg collaborator is assumed to succeed and the
claims under consideration concern uncancelled runs.  `transcribe_chunks` is
embedded as a function of the list of per-chunk recognizer results (the value
`self.model.transcribe` returns for each chunk path, in order), the language
hint, and the sequence of values the cancellation flag shows at the
per-iteration checks; the calls into the model and the progress callback are
recorded in an event trace. -/

/-- One chunk produced by `split_audio`: index, start `i*L` and end
`min((i+1)*L, D)` on the global timeline, in seconds. -/
structure Chunk where
  index : ℕ
  start : ℚ
  stop : ℚ
deriving DecidableEq

/-- Embedding of `split_audio`'s chunk layout:
`num_chunks = int(duration // chunk_length) + 1`, chunk `i` spanning
`[i*chunk_length, min((i+1)*chunk_length, duration))`. -/
def split_audio (D L : ℚ) : List Chunk :=
  (List.range ((⌊D / L⌋).toNat + 1)).map
    (fun i => ⟨i, (i : ℚ) * L, min ((i + 1 : ℚ) * L) D⟩)

/-- One recognizer segment as `whisper` returns it, with chunk-local times in
seconds. -/
structure Seg where
  start : ℚ
  stop : ℚ
  text : String
deriving DecidableEq

/-- The dictionary `self.model.transcribe` returns for one chunk:
`result.get('segments', [])` (a missing key behaves as the empty list) and the
optional `result['language']`. -/
structure RecogResult where
  segments : List Seg
  language : Option String
deriving DecidableEq

/-- Observable actions of `transcribe_chunks`: a call into the recognition
model with the forwarded language parameter, and a progress-callback
invocation `progress_callback((idx+1)/total_chunks*100, idx+1, total_chunks,
stage="Transcription")`. -/
inductive TranscEvent where
  | modelCall (idx : ℕ) (language : Option String)
  | progress (percent : ℚ) (current total : ℕ) (stage : String)
deriving DecidableEq

/-- Python truthiness of the `detected_language` variable: `None` and the
empty string are falsy (`not detected_language`). -/
def strFalsy : Option String → Bool
  | none => true
  | some s => s == ""

/-- The loop of `transcribe_chunks` over the remaining chunk results:
check the stop event, call the model, extend the transcripts, set the
detected language if the hint is `None` and the current value is falsy
(defaulting a missing key to `"unknown"`), then report progress. -/
def transcribeGo (language : Option String) (stop : ℕ → Bool) (total : ℕ) :
    List RecogResult → ℕ → Option String → (List Seg × Option String) × List TranscEvent
  | [], _, detected => (([], detected), [])
  | r :: rest, idx, detected =>
    if stop idx then (([], detected), [])
    else
      let detected' :=
        if language.isNone && strFalsy detected then some (r.language.getD "unknown")
        else detected
      let tail := transcribeGo language stop total rest (idx + 1) detected'
      ((r.segments ++ tail.1.1, tail.1.2),
        TranscEvent.modelCall idx language ::
          TranscEvent.progress ((idx + 1 : ℚ) / (total : ℚ) * 100) (idx + 1) total
            "Transcription" :: tail.2)

/-- Embedding of `transcribe_chunks`: segments are appended exactly as the
recognizer returns them (`transcripts.extend(segments)`). -/
def transcribe_chunks (results : List RecogResult) (language : Option String)
    (stop : ℕ → Bool) : (List Seg × Option String) × List TranscEvent :=
  transcribeGo language stop results.length results 0 none

/-! ### Translator (`processor/translator.py`) -/

/-- Observable actions of `translate_text`: a call into the primary provider
(1-based attempt number), a `time.sleep(self.retry_delay)`, and the single
call into the fallback provider. -/
inductive TransEvent where
  | primaryAttempt (attempt : ℕ)
  | sleepDelay
  | fallbackAttempt
deriving DecidableEq

/-- The `for attempt in range(1, self.retries + 1)` loop: each attempt either
returns the primary provider's translation or logs, sleeps and retries.
`primary a = none` models the provider raising on attempt `a`. -/
def primaryLoop (primary : ℕ → Option String) : ℕ → ℕ → Option String × List TransEvent
  | _, 0 => (none, [])
  | attempt, remaining + 1 =>
    match primary attempt with
    | some t => (some t, [TransEvent.primaryAttempt attempt])
    | none =>
      let tail := primaryLoop primary (attempt + 1) remaining
      (tail.1, TransEvent.primaryAttempt attempt :: TransEvent.sleepDelay :: tail.2)

/-- Embedding of `translate_text`: after the retry loop is exhausted the
fallback provider is tried once; if it also fails (`fallback = none`, the
`except` branch) the original text is returned. -/
def translate_text (primary : ℕ → Option String) (fallback : Option String)
    (retries : ℕ) (text : String) : String × List TransEvent :=
  match primaryLoop primary 1 retries with
  | (some t, evs) => (t, evs)
  | (none, evs) =>
    match fallback with
    | some t => (t, evs ++ [TransEvent.fallbackAttempt])
    | none => (text, evs ++ [TransEvent.fallbackAttempt])

/-! ### Transcriber lemmas -/

theorem transcribeGo_nil (language : Option String) (stop : ℕ → Bool) (total idx : ℕ)
    (d : Option String) : transcribeGo language stop total [] idx d = (([], d), []) := rfl

theorem transcribeGo_cons_stop {stop : ℕ → Bool} {idx : ℕ} (h : stop idx = true)
    (language : Option String) (total : ℕ) (r : RecogResult) (rest : List RecogResult)
    (d : Option String) :
    transcribeGo language stop total (r :: rest) idx d = (([], d), []) := by
  simp [transcribeGo, h]

theorem transcribeGo_cons_go {stop : ℕ → Bool} {idx : ℕ} (h : stop idx = false)
    (language : Option String) (total : ℕ) (r : RecogResult) (rest : List RecogResult)
    (d : Option String) :
    transcribeGo language stop total (r :: rest) idx d =
      ((r.segments ++ (transcribeGo language stop total rest (idx + 1)
          (if language.isNone && strFalsy d then some (r.language.getD "unknown")
           else d)).1.1,
        (transcribeGo language stop total rest (idx + 1)
          (if language.isNone && strFalsy d then some (r.language.getD "unknown")
           else d)).1.2),
       TranscEvent.modelCall idx language ::
         TranscEvent.progress ((idx + 1 : ℚ) / (total : ℚ) * 100) (idx + 1) total
           "Transcription" ::
         (transcribeGo language stop total rest (idx + 1)
           (if language.isNone && strFalsy d then some (r.language.getD "unknown")
            else d)).2) := by
  simp [transcribeGo, h]

theorem transcribeGo_detected_stays (language : Option String) (stop : ℕ → Bool)
    (total : ℕ) :
    ∀ (l : List RecogResult) (idx : ℕ) (s : String), s ≠ "" →
      (transcribeGo language stop total l idx (some s)).1.2 = some s := by
  intro l
  induction l with
  | nil => intro idx s _; rfl
  | cons r rest ih =>
    intro idx s hs
    by_cases h : stop idx = true
    · rw [transcribeGo_cons_stop h]
    · have hfalsy : strFalsy (some s) = false := by
        simp [strFalsy, hs]
      have hcond : (language.isNone && strFalsy (some s)) = false := by
        rw [hfalsy, Bool.and_false]
      have hb : stop idx = false := by
        cases hv : stop idx
        · rfl
        · exact absurd hv h
      rw [transcribeGo_cons_go hb, hcond]
      simp only [Bool.false_eq_true, if_false]
      exact ih (idx + 1) s hs

theorem transcribeGo_hint (hint : String) (stop : ℕ → Bool) (total : ℕ) :
    ∀ (l : List RecogResult) (idx : ℕ) (d : Option String),
      (transcribeGo (some hint) stop total l idx d).1.2 = d ∧
      (∀ i l2, TranscEvent.modelCall i l2 ∈ (transcribeGo (some hint) stop total l idx d).2 →
        l2 = some hint) := by
  intro l
  induction l with
  | nil => intro idx d; exact ⟨rfl, by intro i l2 hm; simp [transcribeGo_nil] at hm⟩
  | cons r rest ih =>
    intro idx d
    by_cases h : stop idx = true
    · rw [transcribeGo_cons_stop h]
      exact ⟨rfl, by intro i l2 hm; simp at hm⟩
    · have hb : stop idx = false := by
        cases hv : stop idx
        · rfl
        · exact absurd hv h
      have hcond : ((some hint).isNone && strFalsy d) = false := rfl
      rw [transcribeGo_cons_go hb, hcond]
      simp only [Bool.false_eq_true, if_false]
      refine ⟨(ih (idx + 1) d).1, ?_⟩
      intro i l2 hm
      simp only [List.mem_cons] at hm
      rcases hm with hm | hm | hm
      · exact (TranscEvent.modelCall.inj hm).2
      · exact absurd hm (by simp)
      · exact (ih (idx + 1) d).2 i l2 hm

theorem transcribeGo_take (language : Option String) (total k : ℕ) :
    ∀ (l : List RecogResult) (idx : ℕ) (d : Option String),
      (transcribeGo language (fun i => decide (k < i)) total l idx d).1.1 =
        ((l.take (k + 1 - idx)).map RecogResult.segments).flatten := by
  intro l
  induction l with
  | nil => intro idx d; simp [transcribeGo_nil]
  | cons r rest ih =>
    intro idx d
    by_cases h : k < idx
    · have hstop : decide (k < idx) = true := by simpa using h
      have htake : k + 1 - idx = 0 := by omega
      rw [transcribeGo_cons_stop hstop, htake]
      simp
    · have hstop : decide (k < idx) = false := by simpa using h
      have htake : k + 1 - idx = (k - idx) + 1 := by omega
      rw [transcribeGo_cons_go hstop, htake]
      simp only [List.take_succ_cons, List.map_cons, List.flatten_cons]
      have harg : k + 1 - (idx + 1) = k - idx := by omega
      have := ih (idx + 1)
        (if language.isNone && strFalsy d then some (r.language.getD "unknown") else d)
      rw [harg] at this
      rw [this]

theorem transcribeGo_modelCall_le (language : Option String) (total k : ℕ) :
    ∀ (l : List RecogResult) (idx : ℕ) (d : Option String) (i : ℕ) (l2 : Option String),
      TranscEvent.modelCall i l2 ∈
        (transcribeGo language (fun i => decide (k < i)) total l idx d).2 → i ≤ k := by
  intro l
  induction l with
  | nil => intro idx d i l2 hm; simp [transcribeGo_nil] at hm
  | cons r rest ih =>
    intro idx d i l2 hm
    by_cases h : k < idx
    · have hstop : decide (k < idx) = true := by simpa using h
      rw [transcribeGo_cons_stop hstop] at hm
      simp at hm
    · have hstop : decide (k < idx) = false := by simpa using h
      rw [transcribeGo_cons_go hstop] at hm
      simp only [List.mem_cons] at hm
      rcases hm with hm | hm | hm
      · have h2 := (TranscEvent.modelCall.inj hm).1
        omega
      · exact absurd hm (by simp)
      · exact ih (idx + 1) _ i l2 hm

theorem transcribeGo_progress_total (language : Option String) (stop : ℕ → Bool)
    (total0 : ℕ) :
    ∀ (l : List RecogResult) (idx : ℕ) (d : Option String) (p : ℚ) (cur total : ℕ)
      (st : String),
      TranscEvent.progress p cur total st ∈ (transcribeGo language stop total0 l idx d).2 →
        total = total0 := by
  intro l
  induction l with
  | nil => intro idx d p cur total st hm; simp [transcribeGo_nil] at hm
  | cons r rest ih =>
    intro idx d p cur total st hm
    by_cases h : stop idx = true
    · rw [transcribeGo_cons_stop h] at hm
      simp at hm
    · have hb : stop idx = false := by
        cases hv : stop idx
        · rfl
        · exact absurd hv h
      rw [transcribeGo_cons_go hb] at hm
      simp only [List.mem_cons] at hm
      rcases hm with hm | hm | hm
      · exact absurd hm (by simp)
      · exact (TranscEvent.progress.inj hm).2.2.1
      · exact ih (idx + 1) _ p cur total st hm

/-! ### Claim C1: chunk timestamps are not offset to the global timeline -/

/-- The recognizer outputs of the repository's own test
`test_transcribe_chunks_offsets_timestamps` (chunk length 15 s): the first
chunk yields a segment at local 0–5 s with language `en`, the second a
segment at local 0–4 s. -/
def c1Results : List RecogResult :=
  [⟨[⟨0, 5, "Hello"⟩], some "en"⟩, ⟨[⟨0, 4, "World"⟩], none⟩]

/-- Claim C1 (code bug): `transcribe_chunks` appends the recognizer's
chunk-local segments unchanged (`transcripts.extend(segments)`), so the
second chunk's segment keeps start 0 and end 4 instead of the global 15 and
19 the claim (and the repository's own test) require, and the concatenated
start/end timeline 0, 5, 0, 4 is not non-decreasing. -/
theorem c1_transcribe_chunks_chunk_relative :
    (transcribe_chunks c1Results none (fun _ => false)).1 =
      ([⟨0, 5, "Hello"⟩, ⟨0, 4, "World"⟩], some "en") ∧
    (transcribe_chunks c1Results none (fun _ => false)).1.1.map Seg.start ≠
      [0, 15] ∧
    ¬ List.Chain' (fun a b => a ≤ b)
      (((transcribe_chunks c1Results none (fun _ => false)).1.1.map
        (fun s => [s.start, s.stop])).flatten) := by
  refine ⟨by decide, by decide, ?_⟩
  intro hch
  have he : ((transcribe_chunks c1Results none (fun _ => false)).1.1.map
      (fun s => [s.start, s.stop])).flatten = [0, 5, 0, 4] := by decide
  rw [he, List.chain'_cons, List.chain'_cons] at hch
  have h50 : (5 : ℚ) ≤ 0 := hch.2.1
  norm_num at h50

/-! ### Claim C6: language detection -/

/-- A run whose first chunk yields no language and whose second yields
`"en"`. -/
def c6Results : List RecogResult := [⟨[], none⟩, ⟨[], some "en"⟩]

/-- Claim C6 (counterexample): with a null hint, when the first chunk yields
no detected language but the second yields `"en"`, the code stores
`"unknown"` from the first chunk (via `result.get('language', 'unknown')`) and
ignores the second chunk's detection, so the detected language does not equal
the detection of the first chunk that yields one. -/
theorem c6_counterexample :
    (transcribe_chunks c6Results none (fun _ => false)).1.2 = some "unknown" ∧
    (some "unknown" : Option String) ≠ some "en" := by
  refine ⟨by decide, by decide⟩

/-- Claim C6 (amended): provided every yielded detection is a nonempty code,
the detected language is set from the first chunk processed — it equals that
chunk's detection when present and `"unknown"` otherwise — and later chunks'
detections are ignored; when a non-null hint is supplied, detection is
skipped (the result is `None`) and the hint is forwarded unchanged to every
model call. -/
theorem c6_amended (results : List RecogResult) (stop : ℕ → Bool)
    (hne : ∀ r ∈ results, r.language ≠ some "") :
    (∀ (r0 : RecogResult) (rest : List RecogResult), results = r0 :: rest →
      stop 0 = false →
      (transcribe_chunks results none stop).1.2 = some (r0.language.getD "unknown")) ∧
    (∀ hint : String, (transcribe_chunks results (some hint) stop).1.2 = none ∧
      (∀ i l2, TranscEvent.modelCall i l2 ∈ (transcribe_chunks results (some hint) stop).2 →
        l2 = some hint)) := by
  constructor
  · intro r0 rest hres hstop
    subst hres
    have hs0 : r0.language.getD "unknown" ≠ "" := by
      cases hl : r0.language with
      | none => simp
      | some str =>
        have := hne r0 (List.mem_cons_self _ _)
        rw [hl] at this
        simp only [Option.getD_some]
        intro hc
        exact this (by rw [hc])
    show (transcribeGo none stop (r0 :: rest).length (r0 :: rest) 0 none).1.2 = _
    rw [transcribeGo_cons_go hstop]
    have hcond : ((none : Option String).isNone && strFalsy none) = true := rfl
    rw [hcond]
    simp only [if_true]
    exact transcribeGo_detected_stays none stop _ rest 1 _ hs0
  · intro hint
    exact ⟨(transcribeGo_hint hint stop _ results 0 none).1,
      (transcribeGo_hint hint stop _ results 0 none).2⟩

/-- Concrete results for the amended-claim witness: both chunks yield
nonempty language codes. -/
def c6WitnessResults : List RecogResult := [⟨[], some "fr"⟩, ⟨[], some "en"⟩]

/-- Witness for the amended C6 claim at a concrete input. -/
theorem c6_amended_witness :
    (∀ r ∈ c6WitnessResults, r.language ≠ some "") ∧
    (transcribe_chunks c6WitnessResults none (fun _ => false)).1.2 = some "fr" := by
  refine ⟨by decide, ?_⟩
  exact (c6_amended c6WitnessResults (fun _ => false) (by decide)).1
    ⟨[], some "fr"⟩ [⟨[], some "en"⟩] rfl rfl

/-! ### Claim C7: cooperative cancellation at chunk granularity -/

/-- Claim C7: cancellation is checked before starting each chunk and never
mid-chunk.  If the signal is already set at the first check, no chunk is
consumed and the segment list (and trace) are empty; if the signal becomes
set after chunk `k` completes (the checks return false up to index `k` and
true after), the result is exactly the concatenation of the full segment
lists of chunks `0..k`, and no model call is made for any chunk after `k` —
a chunk contributes all of its segments or none. -/
theorem c7_cancellation (results : List RecogResult) (language : Option String) :
    (∀ stop : ℕ → Bool, stop 0 = true →
      transcribe_chunks results language stop = (([], none), [])) ∧
    (∀ k : ℕ,
      (transcribe_chunks results language (fun i => decide (k < i))).1.1 =
        ((results.take (k + 1)).map RecogResult.segments).flatten ∧
      (∀ i l2, TranscEvent.modelCall i l2 ∈
          (transcribe_chunks results language (fun i => decide (k < i))).2 → i ≤ k)) := by
  constructor
  · intro stop hstop
    cases results with
    | nil => rfl
    | cons r rest => exact transcribeGo_cons_stop hstop language _ r rest none
  · intro k
    constructor
    · have := transcribeGo_take language results.length k results 0 none
      simpa using this
    · intro i l2 hm
      exact transcribeGo_modelCall_le language results.length k results 0 none i l2 hm

/-- Witness for C7: with the signal set before the run, a one-chunk input
consumes nothing. -/
theorem c7_witness :
    ((fun _ => true) : ℕ → Bool) 0 = true ∧
    transcribe_chunks [⟨[⟨0, 1, "x"⟩], some "en"⟩] none (fun _ => true) =
      (([], none), []) :=
  ⟨rfl, (c7_cancellation [⟨[⟨0, 1, "x"⟩], some "en"⟩] none).1 (fun _ => true) rfl⟩

/-! ### Claim C10: the empty chunk list is safe -/

/-- Claim C10: on an empty chunk list `transcribe_chunks` returns
`([], None)` without invoking the model or the progress callback (the trace
is empty), and for every input list a progress report — the only place the
expression `(idx+1)/total_chunks*100` is evaluated — carries
`total = len(chunk_paths)` and only occurs when that length is positive, so
the division by zero is unreachable. -/
theorem c10_empty_chunks_safe :
    (∀ (language : Option String) (stop : ℕ → Bool),
      transcribe_chunks [] language stop = (([], none), [])) ∧
    (∀ (results : List RecogResult) (language : Option String) (stop : ℕ → Bool)
        (p : ℚ) (cur total : ℕ) (st : String),
      TranscEvent.progress p cur total st ∈ (transcribe_chunks results language stop).2 →
      total = results.length ∧ 0 < results.length) := by
  constructor
  · intro language stop
    rfl
  · intro results language stop p cur total st hm
    constructor
    · exact transcribeGo_progress_total language stop results.length results 0 none
        p cur total st hm
    · cases results with
      | nil => simp [transcribe_chunks, transcribeGo_nil] at hm
      | cons r rest => simp

/-- Witness for C10: the progress event of a one-chunk run is in the trace
and carries the positive total. -/
theorem c10_witness :
    TranscEvent.progress ((0 + 1 : ℚ) / (((1 : ℕ) : ℚ)) * 100) (0 + 1) 1 "Transcription" ∈
      (transcribe_chunks [⟨[], none⟩] none (fun _ => false)).2 ∧
    (1 = ([(⟨[], none⟩ : RecogResult)] : List RecogResult).length ∧
      0 < ([(⟨[], none⟩ : RecogResult)] : List RecogResult).length) := by
  have hmem : TranscEvent.progress ((0 + 1 : ℚ) / (((1 : ℕ) : ℚ)) * 100) (0 + 1) 1
      "Transcription" ∈ (transcribe_chunks [⟨[], none⟩] none (fun _ => false)).2 := by
    show _ ∈ (transcribeGo none (fun _ => false) 1 [⟨[], none⟩] 0 none).2
    rw [transcribeGo_cons_go rfl]
    exact List.mem_cons_of_mem _ (List.mem_cons_self _ _)
  exact ⟨hmem, (c10_empty_chunks_safe).2 [⟨[], none⟩] none (fun _ => false) _ _ _ _ hmem⟩

/-! ### Claim C5: translator retry, fallback, degrade -/

theorem primaryLoop_fail {primary : ℕ → Option String} :
    ∀ (remaining a : ℕ), (∀ i, a ≤ i → i < a + remaining → primary i = none) →
      primaryLoop primary a remaining =
        (none, ((List.range' a remaining).map
          (fun j => [TransEvent.primaryAttempt j, TransEvent.sleepDelay])).flatten) := by
  intro remaining
  induction remaining with
  | zero => intro a _; rfl
  | succ rem ih =>
    intro a h
    have h0 : primary a = none := h a le_rfl (by omega)
    show (match primary a with
      | some t => (some t, [TransEvent.primaryAttempt a])
      | none =>
        ((primaryLoop primary (a + 1) rem).1,
          TransEvent.primaryAttempt a :: TransEvent.sleepDelay ::
            (primaryLoop primary (a + 1) rem).2)) = _
    rw [h0]
    rw [ih (a + 1) (fun i h1 h2 => h i (by omega) (by omega))]
    rw [List.range'_succ]
    simp

theorem countP_event_pairs (p : TransEvent → Bool) (g : ℕ → TransEvent)
    (hg : ∀ j, p (g j) = true) (hS : p TransEvent.sleepDelay = false) :
    ∀ l : List ℕ, ((l.map (fun j => [g j, TransEvent.sleepDelay])).flatten).countP p =
      l.length := by
  intro l
  induction l with
  | nil => rfl
  | cons j rest ih =>
    simp only [List.map_cons, List.flatten_cons, List.countP_append, ih]
    simp [List.countP_cons, hg j, hS]
    omega

theorem countP_event_pairs_none (p : TransEvent → Bool) (g : ℕ → TransEvent)
    (hg : ∀ j, p (g j) = false) (hS : p TransEvent.sleepDelay = false) :
    ∀ l : List ℕ, ((l.map (fun j => [g j, TransEvent.sleepDelay])).flatten).countP p = 0 := by
  intro l
  induction l with
  | nil => rfl
  | cons j rest ih =>
    simp only [List.map_cons, List.flatten_cons, List.countP_append, ih]
    simp [List.countP_cons, hg j, hS]

/-- The predicate recognizing a primary-provider call in the trace. -/
def isPrimaryAttempt : TransEvent → Bool
  | TransEvent.primaryAttempt _ => true
  | _ => false

/-- The predicate recognizing the fallback-provider call in the trace. -/
def isFallbackAttempt : TransEvent → Bool
  | TransEvent.fallbackAttempt => true
  | _ => false

/-- Claim C5: when every one of the `retries` primary attempts fails,
`translate_text` performs exactly `retries` primary attempts (1-based) with a
sleep after each failure — so a fixed delay separates consecutive attempts —
then attempts the fallback exactly once, strictly after all primary
attempts; the result is the fallback's translation when it succeeds and the
original text unchanged when it also fails, and in either case the function
returns normally (failures of the providers are consumed, never re-raised). -/
theorem c5_translate_text_fallback (primary : ℕ → Option String)
    (fallback : Option String) (retries : ℕ) (text : String)
    (hfail : ∀ a, 1 ≤ a → a ≤ retries → primary a = none) :
    translate_text primary fallback retries text =
      (fallback.getD text,
        ((List.range' 1 retries).map
          (fun j => [TransEvent.primaryAttempt j, TransEvent.sleepDelay])).flatten ++
          [TransEvent.fallbackAttempt]) ∧
    (translate_text primary fallback retries text).2.countP isPrimaryAttempt = retries ∧
    (translate_text primary fallback retries text).2.countP isFallbackAttempt = 1 ∧
    (translate_text primary fallback retries text).2.getLast? =
      some TransEvent.fallbackAttempt := by
  have hloop : primaryLoop primary 1 retries =
      (none, ((List.range' 1 retries).map
        (fun j => [TransEvent.primaryAttempt j, TransEvent.sleepDelay])).flatten) :=
    primaryLoop_fail retries 1 (fun i h1 h2 => hfail i h1 (by omega))
  have heq : translate_text primary fallback retries text =
      (fallback.getD text,
        ((List.range' 1 retries).map
          (fun j => [TransEvent.primaryAttempt j, TransEvent.sleepDelay])).flatten ++
          [TransEvent.fallbackAttempt]) := by
    unfold translate_text
    rw [hloop]
    cases fallback <;> rfl
  refine ⟨heq, ?_, ?_, ?_⟩
  · rw [heq]
    simp only [List.countP_append]
    rw [countP_event_pairs isPrimaryAttempt TransEvent.primaryAttempt
      (fun j => rfl) rfl]
    simp [List.countP_cons, isPrimaryAttempt]
  · rw [heq]
    simp only [List.countP_append]
    rw [countP_event_pairs_none isFallbackAttempt
      TransEvent.primaryAttempt (fun j => rfl) rfl]
    simp [List.countP_cons, isFallbackAttempt]
  · rw [heq]
    simp

/-- Witness for C5 at a concrete input: default three retries, both providers
failing, the original text is returned and the trace is exactly three
attempt/sleep pairs followed by the single fallback attempt. -/
theorem c5_witness :
    (∀ a, 1 ≤ a → a ≤ 3 → (fun _ => (none : Option String)) a = none) ∧
    translate_text (fun _ => none) none 3 "hola" =
      ("hola",
        [TransEvent.primaryAttempt 1, TransEvent.sleepDelay,
         TransEvent.primaryAttempt 2, TransEvent.sleepDelay,
         TransEvent.primaryAttempt 3, TransEvent.sleepDelay,
         TransEvent.fallbackAttempt]) := by
  refine ⟨fun a _ _ => rfl, ?_⟩
  have h := (c5_translate_text_fallback (fun _ => none) none 3 "hola"
    (fun a h1 h2 => rfl)).1
  rw [h]
  decide

/-! ### Claim C2: chunk layout of `split_audio` -/

theorem split_audio_mul_le {D L : ℚ} (hD : 0 ≤ D) (hL : 0 < L) {i : ℕ}
    (hi : (i : ℤ) ≤ ⌊D / L⌋) : (i : ℚ) * L ≤ D := by
  have h1 : (i : ℚ) ≤ D / L := le_trans (by exact_mod_cast Int.le_floor.mp hi) (le_refl _)
  calc (i : ℚ) * L ≤ (D / L) * L := by
        exact mul_le_mul_of_nonneg_right h1 hL.le
  _ = D := by
        field_simp

theorem split_audio_sum_aux (D L : ℚ) (hD : 0 ≤ D) :
    ∀ (m : ℕ), (∀ i : ℕ, i < m → (i : ℚ) * L ≤ D) →
      ((List.range m).map
        (fun (i : ℕ) => min (((i : ℚ) + 1) * L) D - (i : ℚ) * L)).sum =
        min ((m : ℚ) * L) D := by
  intro m
  induction m with
  | zero => intro _; simpa using min_eq_left hD
  | succ m ih =>
    intro h
    rw [List.range_succ, List.map_append, List.sum_append,
      ih (fun i hi => h i (by omega))]
    have hm : (m : ℚ) * L ≤ D := h m (by omega)
    rw [min_eq_left hm]
    push_cast
    simp

/-- Claim C2: for nonnegative duration `D` and positive chunk length `L`,
`split_audio` produces exactly `floor(D/L) + 1` chunks (the final chunk is
never omitted), chunk `i` covers `[i*L, min((i+1)*L, D))`, consecutive start
offsets increase by exactly `L` with each chunk ending exactly where the next
begins (no gaps, no overlaps), no chunk starts or ends past `D`, and the
chunk spans sum to `D` exactly. -/
theorem c2_split_audio_layout (D L : ℚ) (hD : 0 ≤ D) (hL : 0 < L) :
    (split_audio D L).length = (⌊D / L⌋).toNat + 1 ∧
    split_audio D L ≠ [] ∧
    (∀ (i : ℕ) (h : i < (split_audio D L).length),
      (split_audio D L).get ⟨i, h⟩ = ⟨i, (i : ℚ) * L, min ((i + 1 : ℚ) * L) D⟩) ∧
    List.Chain' (fun a b => a.stop = b.start ∧ b.start = a.start + L) (split_audio D L) ∧
    (∀ c ∈ split_audio D L, c.start ≤ D ∧ c.stop ≤ D) ∧
    ((split_audio D L).map (fun c => c.stop - c.start)).sum = D := by
  have hfl0 : 0 ≤ ⌊D / L⌋ := Int.floor_nonneg.mpr (div_nonneg hD hL.le)
  have hlen : (split_audio D L).length = (⌊D / L⌋).toNat + 1 := by
    simp [split_audio]
  have hle : ∀ i : ℕ, i ≤ (⌊D / L⌋).toNat → (i : ℚ) * L ≤ D := by
    intro i hi
    refine split_audio_mul_le hD hL ?_
    omega
  have hget : ∀ (i : ℕ) (h : i < (split_audio D L).length),
      (split_audio D L).get ⟨i, h⟩ = ⟨i, (i : ℚ) * L, min ((i + 1 : ℚ) * L) D⟩ := by
    intro i h
    simp [split_audio]
  refine ⟨hlen, ?_, hget, ?_, ?_, ?_⟩
  · intro hc
    have := hlen
    rw [hc] at this
    simp at this
  · rw [List.chain'_iff_get]
    intro i hi
    rw [hget i (by omega), hget (i + 1) (by omega)]
    have hi2 : i + 1 ≤ (⌊D / L⌋).toNat := by
      rw [hlen] at hi
      omega
    have hmin : min ((i + 1 : ℚ) * L) D = (i + 1 : ℚ) * L :=
      min_eq_left (by exact_mod_cast hle (i + 1) hi2)
    constructor
    · show min ((i + 1 : ℚ) * L) D = ((i + 1 : ℕ) : ℚ) * L
      rw [hmin]
      push_cast
      ring
    · show ((i + 1 : ℕ) : ℚ) * L = (i : ℚ) * L + L
      push_cast
      ring
  · intro c hc
    simp only [split_audio, List.mem_map, List.mem_range] at hc
    rcases hc with ⟨i, hi, rfl⟩
    constructor
    · exact hle i (by omega)
    · exact min_le_right _ _
  · have hmap : (split_audio D L).map (fun c => c.stop - c.start) =
        (List.range ((⌊D / L⌋).toNat + 1)).map
          (fun (i : ℕ) => min (((i : ℚ) + 1) * L) D - (i : ℚ) * L) := by
      rw [split_audio, List.map_map]
      rfl
    rw [hmap, split_audio_sum_aux D L hD _ (fun i hi => hle i (by omega))]
    refine min_eq_right ?_
    have h2 : ((⌊D / L⌋ : ℤ) : ℚ) = ((⌊D / L⌋).toNat : ℚ) := by
      exact_mod_cast congrArg (fun z : ℤ => (z : ℚ)) (Int.toNat_of_nonneg hfl0).symm
    have h1 : D / L < (((⌊D / L⌋).toNat + 1 : ℕ) : ℚ) := by
      push_cast
      rw [← h2]
      exact Int.lt_floor_add_one (D / L)
    calc D = (D / L) * L := by field_simp
    _ ≤ (((⌊D / L⌋).toNat + 1 : ℕ) : ℚ) * L :=
        mul_le_mul_of_nonneg_right h1.le hL.le

/-- Witness for C2 at `D = 30`, `L = 15` (three chunks, the last empty at
`[30, 30)`). -/
theorem c2_witness :
    (0 : ℚ) ≤ 30 ∧ (0 : ℚ) < 15 ∧
    ((split_audio 30 15).length = (⌊(30 : ℚ) / 15⌋).toNat + 1 ∧
      split_audio 30 15 ≠ [] ∧
      (∀ (i : ℕ) (h : i < (split_audio 30 15).length),
        (split_audio 30 15).get ⟨i, h⟩ =
          ⟨i, (i : ℚ) * 15, min ((i + 1 : ℚ) * 15) 30⟩) ∧
      List.Chain' (fun a b => a.stop = b.start ∧ b.start = a.start + 15)
        (split_audio 30 15) ∧
      (∀ c ∈ split_audio 30 15, c.start ≤ 30 ∧ c.stop ≤ 30) ∧
      ((split_audio 30 15).map (fun c => c.stop - c.start)).sum = 30) :=
  ⟨by decide, by decide, c2_split_audio_layout 30 15 (by decide) (by decide)⟩

/-! ### Claim C4: idempotence of `correct_srt_format` -/

/-- The well-formed document on which idempotence fails: both timecodes are
valid `HH:MM:SS,mmm`, but the overlap repair pushes the second entry's start
past the 100-hour rollover. -/
def c4CexBlocks : List RawBlock :=
  [⟨("1" : String).toList, ("99:59:58,000" : String).toList,
    ("99:59:59,999" : String).toList, ("A" : String).toList⟩,
   ⟨("2" : String).toList, ("99:59:59,000" : String).toList,
    ("99:59:59,500" : String).toList, ("B" : String).toList⟩]

/-- The characters of that document. -/
def c4CexDoc : List Char := (c4CexBlocks.map RawBlock.chars).flatten

/-- Claim C4 (counterexample): on this well-formed document,
`correct_srt_format` is not idempotent.  The first pass repairs the overlap
by pushing entry 2 to `100:00:00,000 --> 100:00:02,000`; the serialized
three-digit hour no longer matches the parser's two-digit `HH` pattern, so
the second pass drops the entry and returns a one-entry document different
from the first pass's output. -/
theorem c4_counterexample :
    (∀ b ∈ c4CexBlocks, GoodBlock b = true) ∧
    c4CexBlocks ≠ [] ∧
    c4CexDoc = (c4CexBlocks.map RawBlock.chars).flatten ∧
    (correct_srt_format c4CexDoc).bind correct_srt_format ≠
      correct_srt_format c4CexDoc :=
  ⟨by decide, by decide, rfl, by decide⟩

/-- Claim C4 (amended): `correct_srt_format` is idempotent on every
well-formed subtitle document whose repaired timeline stays below the
100-hour rollover of the two-digit hour field — applying the
parse → sort → repair-overlaps → renumber → serialize pipeline to its own
output is then a fixed point.  A well-formed subtitle document is given as a
nonempty concatenation of blocks (numeric index line, timecode line, one text
line, blank separator) with valid `HH:MM:SS,mmm` timecodes; the headroom
hypothesis bounds every time far enough below 100 hours that no repair step
(each of which can push times by at most 2001 ms) crosses the rollover, where
a re-serialized timecode no longer parses (see the counterexample). -/
theorem c4_correct_srt_format_idempotent (bs : List RawBlock) (doc : List Char)
    (hdoc : doc = (bs.map RawBlock.chars).flatten)
    (hbs : bs ≠ [])
    (hgood : ∀ b ∈ bs, GoodBlock b = true)
    (hbound : ∀ b ∈ bs, time_to_seconds b.t1 + 2001 * bs.length < 360000000 ∧
      time_to_seconds b.t2 + 2001 * bs.length < 360000000) :
    (correct_srt_format doc).bind correct_srt_format = correct_srt_format doc := by
  subst hdoc
  have hparse : parse_srt ((bs.map RawBlock.chars).flatten) = bs.map entryOf :=
    parse_srt_flatten_blocks bs hgood
  have hne : bs.map entryOf ≠ [] := by
    intro hc
    exact hbs (List.map_eq_nil.mp hc)
  have hstep1 : correct_srt_format ((bs.map RawBlock.chars).flatten) =
      some (format_srt (bs.map entryOf)) := by
    simp [correct_srt_format, hparse, List.isEmpty_eq_false.mpr hne]
  have hval : ∀ e ∈ bs.map entryOf,
      validTimecode e.start = true ∧ validTimecode e.stop = true := by
    intro e he
    rcases List.mem_map.mp he with ⟨b, hb, rfl⟩
    have hg := hgood b hb
    simp only [GoodBlock, Bool.and_eq_true] at hg
    exact ⟨hg.1.1.2, hg.1.2⟩
  have htext : ∀ e ∈ bs.map entryOf, goodText e.text = true := by
    intro e he
    rcases List.mem_map.mp he with ⟨b, hb, rfl⟩
    have hg := hgood b hb
    simp only [GoodBlock, Bool.and_eq_true] at hg
    exact hg.2
  have h2001 : 2001 * bs.length < 360000000 := by
    rcases bs with _ | ⟨b0, bs'⟩
    · exact absurd rfl hbs
    · have := hbound b0 (List.mem_cons_self _ _)
      omega
  have hsortlen : (sortEntries (bs.map entryOf)).length = bs.length := by
    rw [(sortEntries_perm _).length_eq, List.length_map]
  have hmemB : ∀ e ∈ sortEntries (bs.map entryOf),
      time_to_seconds e.start ≤ 360000000 - 2001 * bs.length - 1 ∧
        time_to_seconds e.stop ≤ 360000000 - 2001 * bs.length - 1 := by
    intro e he
    have he2 : e ∈ bs.map entryOf := (sortEntries_perm _).mem_iff.mp he
    rcases List.mem_map.mp he2 with ⟨b, hb, rfl⟩
    have := hbound b hb
    constructor
    · show time_to_seconds b.t1 ≤ _
      omega
    · show time_to_seconds b.t2 ≤ _
      omega
  have hboundrep : ∀ x ∈ repairOverlaps (sortEntries (bs.map entryOf)),
      time_to_seconds x.start < 360000000 ∧ time_to_seconds x.stop < 360000000 := by
    intro x hx
    cases hs : sortEntries (bs.map entryOf) with
    | nil => rw [hs] at hx; simp [repairOverlaps] at hx
    | cons c rest =>
      have hrestlen : rest.length + 1 = bs.length := by
        rw [← hsortlen, hs]
        rfl
      have hcB := hmemB c (by rw [hs]; exact List.mem_cons_self _ _)
      rw [hs] at hx
      rcases List.mem_cons.mp hx with rfl | hx'
      · omega
      · have hrest : ∀ d ∈ rest, time_to_seconds d.start ≤ 360000000 - 2001 * bs.length - 1 ∧
            time_to_seconds d.stop ≤ 360000000 - 2001 * bs.length - 1 := by
          intro d hd
          exact hmemB d (by rw [hs]; exact List.mem_cons_of_mem _ hd)
        have := repairFrom_bound hcB.1 hcB.2 hrest x hx'
        omega
  obtain ⟨houtfacts, houtpw, houtch, houtlen⟩ :=
    correctedEntries_facts (bs.map entryOf) hval htext hboundrep
  have houtne : correctedEntries (bs.map entryOf) ≠ [] := by
    intro hc
    have hlen := houtlen
    rw [hc] at hlen
    simp at hlen
    exact hbs (List.length_eq_zero.mp hlen.symm)
  have hser : format_srt (bs.map entryOf) =
      (((correctedEntries (bs.map entryOf)).map toBlock).map RawBlock.chars).flatten := by
    rw [format_srt_eq_corrected]
    congr 1
    rw [List.map_map]
    apply List.map_congr_left
    intro e _
    exact serializeEntry_eq_chars e
  have hgood2 : ∀ b2 ∈ (correctedEntries (bs.map entryOf)).map toBlock,
      GoodBlock b2 = true := by
    intro b2 hb2
    rcases List.mem_map.mp hb2 with ⟨y, hy, rfl⟩
    rcases houtfacts y hy with ⟨hv1, hv2, ht⟩
    exact GoodBlock_toBlock hv1 hv2 ht
  have hparse2 : parse_srt (format_srt (bs.map entryOf)) =
      correctedEntries (bs.map entryOf) := by
    rw [hser, parse_srt_flatten_blocks _ hgood2, List.map_map]
    have hid : ((entryOf ∘ toBlock) : Entry → Entry) = id := funext entryOf_toBlock
    rw [hid, List.map_id]
  have hren : renumberFrom 1 (correctedEntries (bs.map entryOf)) =
      correctedEntries (bs.map entryOf) :=
    renumberFrom_renumberFrom _ 1
  have hfix : correctedEntries (correctedEntries (bs.map entryOf)) =
      correctedEntries (bs.map entryOf) :=
    correctedEntries_fixed _ houtpw houtch hren
  have hstep2 : correct_srt_format (format_srt (bs.map entryOf)) =
      some (format_srt (bs.map entryOf)) := by
    simp only [correct_srt_format, hparse2, List.isEmpty_eq_false.mpr houtne,
      Bool.false_eq_true, if_false]
    congr 1
    rw [format_srt_eq_corrected (correctedEntries (bs.map entryOf)), hfix,
      format_srt_eq_corrected]
  rw [hstep1, Option.some_bind]
  exact hstep2

/-- The two-block sample document of the specification (no overlaps,
indices 1 and 2). -/
def sampleBlocks : List RawBlock :=
  [⟨("1" : String).toList, ("00:00:00,000" : String).toList,
    ("00:00:01,000" : String).toList, ("Hello" : String).toList⟩,
   ⟨("2" : String).toList, ("00:00:01,000" : String).toList,
    ("00:00:02,000" : String).toList, ("World" : String).toList⟩]

/-- The characters of the sample document. -/
def sampleDoc : List Char := (sampleBlocks.map RawBlock.chars).flatten

/-- Witness for C4 at the specification's sample document. -/
theorem c4_witness :
    sampleDoc = (sampleBlocks.map RawBlock.chars).flatten ∧
    sampleBlocks ≠ [] ∧
    (∀ b ∈ sampleBlocks, GoodBlock b = true) ∧
    (∀ b ∈ sampleBlocks, time_to_seconds b.t1 + 2001 * sampleBlocks.length < 360000000 ∧
      time_to_seconds b.t2 + 2001 * sampleBlocks.length < 360000000) ∧
    (correct_srt_format sampleDoc).bind correct_srt_format = correct_srt_format sampleDoc :=
  ⟨rfl, by decide, by decide, by decide,
    c4_correct_srt_format_idempotent sampleBlocks sampleDoc rfl (by decide) (by decide)
      (by decide)⟩

/-! ### Claim C3: the adjacent-pair guarantee after overlap repair -/

/-- A well-formed document whose second entry has a zero-length interval and
no overlap with the first: the repair loop never touches it. -/
def c3Blocks : List RawBlock :=
  [⟨("1" : String).toList, ("00:00:00,000" : String).toList,
    ("00:00:01,000" : String).toList, ("A" : String).toList⟩,
   ⟨("2" : String).toList, ("00:00:02,000" : String).toList,
    ("00:00:02,000" : String).toList, ("B" : String).toList⟩]

/-- The characters of that document. -/
def c3Doc : List Char := (c3Blocks.map RawBlock.chars).flatten

/-- Claim C3 (counterexample): in the output of `correct_srt_format` on this
well-formed document the adjacent pair A then B has `B.start ≥ A.end` but
`B.end > B.start` fails — the code only enforces `end > start` for entries
whose start it pushed, and B (a zero-length entry that does not overlap A) is
never touched. -/
theorem c3_counterexample :
    (∀ b ∈ c3Blocks, GoodBlock b = true) ∧
    c3Doc = (c3Blocks.map RawBlock.chars).flatten ∧
    correctedEntries (parse_srt c3Doc) =
      [⟨1, ("00:00:00,000" : String).toList, ("00:00:01,000" : String).toList,
        ("A" : String).toList⟩,
       ⟨2, ("00:00:02,000" : String).toList, ("00:00:02,000" : String).toList,
        ("B" : String).toList⟩] ∧
    ¬ (time_to_seconds (("00:00:01,000" : String).toList) ≤
        time_to_seconds (("00:00:02,000" : String).toList) ∧
      time_to_seconds (("00:00:02,000" : String).toList) <
        time_to_seconds (("00:00:02,000" : String).toList)) :=
  ⟨by decide, rfl, by decide, by decide⟩

/-- Claim C3 (amended): in the entry sequence `correct_srt_format`
serializes, every pair of adjacent entries A then B satisfies
`B.start ≥ A.end`; and `B.end > B.start` additionally holds for every entry
the repair pushed (those with `B.start < A.end` against their already-repaired
predecessor) — but not necessarily for untouched entries. -/
theorem c3_overlap_repair_amended :
    (∀ doc : List Char, List.Chain' gapLE (correctedEntries (parse_srt doc))) ∧
    (∀ A B : Entry, time_to_seconds B.start < time_to_seconds A.stop →
      time_to_seconds (repairOne A B).start < time_to_seconds (repairOne A B).stop) := by
  constructor
  · intro doc
    exact renumberFrom_chain' (fun a b i j h => h) (repairOverlaps_chain' _)
  · intro A B h
    exact repairOne_pushed_stop h

/-- The overlapping pair used by the C3 witness. -/
def c3wA : Entry :=
  ⟨1, ("00:00:00,000" : String).toList, ("00:00:05,000" : String).toList,
    ("A" : String).toList⟩

/-- The overlapping pair used by the C3 witness. -/
def c3wB : Entry :=
  ⟨2, ("00:00:01,000" : String).toList, ("00:00:02,000" : String).toList,
    ("B" : String).toList⟩

/-- Witness for the amended C3 claim at concrete inputs. -/
theorem c3_amended_witness :
    List.Chain' gapLE (correctedEntries (parse_srt c3Doc)) ∧
    (time_to_seconds c3wB.start < time_to_seconds c3wA.stop ∧
      time_to_seconds (repairOne c3wA c3wB).start <
        time_to_seconds (repairOne c3wA c3wB).stop) :=
  ⟨c3_overlap_repair_amended.1 c3Doc,
    by decide, c3_overlap_repair_amended.2 c3wA c3wB (by decide)⟩

/-! ### Claim C8: what `parse_srt` recovers from each block -/

/-- One subtitle block with one or more text lines — the claim's notion of a
well-formed block. -/
structure MLBlock where
  idx : List Char
  t1 : List Char
  t2 : List Char
  lines : List (List Char)
deriving DecidableEq

/-- The characters of a block: index line, timecode line, each text line
followed by a newline, and the blank separator line. -/
def MLBlock.chars (b : MLBlock) : List Char :=
  b.idx ++ '\n' :: (b.t1 ++ ' ' :: '-' :: '-' :: '>' :: ' ' ::
    (b.t2 ++ '\n' :: ((b.lines.map (fun l => l ++ ['\n'])).flatten ++ ['\n'])))

/-- Well-formedness of a block: nonempty digit index, valid timecodes, at
least one text line, all text lines good. -/
def GoodMLBlock (b : MLBlock) : Bool :=
  !b.idx.isEmpty && b.idx.all Char.isDigit && validTimecode b.t1 &&
    validTimecode b.t2 && !b.lines.isEmpty && b.lines.all goodText

/-- The complete text content of a block: its text lines joined by
newlines. -/
def MLBlock.fullText (b : MLBlock) : List Char :=
  (List.intersperse ['\n'] b.lines).flatten

/-- The entry the claim says `parse_srt` recovers for a block: the block's
complete text content. -/
def mlEntryOf (b : MLBlock) : Entry :=
  ⟨digitsToNat b.idx, b.t1, b.t2, b.fullText⟩

/-- A single-line block viewed as a `RawBlock`. -/
def mlToRaw (b : MLBlock) : RawBlock :=
  ⟨b.idx, b.t1, b.t2, b.lines.headD []⟩

theorem ml_single_chars {b : MLBlock} {t : List Char} (h : b.lines = [t]) :
    b.chars = (mlToRaw b).chars := by
  obtain ⟨idx, t1, t2, lines⟩ := b
  simp only at h
  subst h
  simp [MLBlock.chars, RawBlock.chars, mlToRaw]

theorem ml_single_entry {b : MLBlock} {t : List Char} (h : b.lines = [t]) :
    mlEntryOf b = entryOf (mlToRaw b) := by
  obtain ⟨idx, t1, t2, lines⟩ := b
  simp only at h
  subst h
  simp [mlEntryOf, entryOf, mlToRaw, MLBlock.fullText]

theorem ml_single_good {b : MLBlock} {t : List Char} (h : b.lines = [t])
    (hg : GoodMLBlock b = true) : GoodBlock (mlToRaw b) = true := by
  obtain ⟨idx, t1, t2, lines⟩ := b
  simp only at h
  subst h
  simp only [GoodMLBlock, Bool.and_eq_true, List.all_eq_true] at hg
  simp only [GoodBlock, mlToRaw, Bool.and_eq_true, List.all_eq_true]
  refine ⟨⟨⟨⟨hg.1.1.1.1.1, hg.1.1.1.1.2⟩, hg.1.1.1.2⟩, hg.1.1.2⟩, ?_⟩
  exact hg.2 t (List.mem_singleton_self t)

/-- The multi-line block of the C8 counterexample. -/
def c8Block : MLBlock :=
  ⟨("1" : String).toList, ("00:00:00,000" : String).toList,
    ("00:00:01,000" : String).toList,
    [("Hello" : String).toList, ("World" : String).toList]⟩

/-- The characters of the C8 counterexample document. -/
def c8Doc : List Char := ([c8Block].map MLBlock.chars).flatten

/-- Claim C8 (counterexample): on a well-formed document whose single block
has two text lines, `parse_srt` recovers the entry with text `Hello` only —
the lazy text group of the pattern stops at the first line end, so the text
does not equal the block's complete content `Hello\nWorld`. -/
theorem c8_counterexample :
    GoodMLBlock c8Block = true ∧
    c8Doc = ([c8Block].map MLBlock.chars).flatten ∧
    parse_srt c8Doc =
      [⟨1, ("00:00:00,000" : String).toList, ("00:00:01,000" : String).toList,
        ("Hello" : String).toList⟩] ∧
    parse_srt c8Doc ≠ [c8Block].map mlEntryOf :=
  ⟨by decide, rfl, by decide, by decide⟩

/-- Claim C8 (amended): for well-formed block-structured documents in which
every block has exactly one text line, `parse_srt` recovers exactly one entry
per block whose text equals that block's text line; text lines after the
first of a block are not recovered (see the counterexample). -/
theorem c8_parse_single_line_blocks (bs : List MLBlock) (doc : List Char)
    (hdoc : doc = (bs.map MLBlock.chars).flatten)
    (hgood : ∀ b ∈ bs, GoodMLBlock b = true)
    (hsingle : ∀ b ∈ bs, b.lines.length = 1) :
    parse_srt doc = bs.map mlEntryOf := by
  subst hdoc
  have hchars : bs.map MLBlock.chars = (bs.map mlToRaw).map RawBlock.chars := by
    rw [List.map_map]
    apply List.map_congr_left
    intro b hb
    rcases List.length_eq_one.mp (hsingle b hb) with ⟨t, ht⟩
    exact ml_single_chars ht
  have hgb : ∀ b2 ∈ bs.map mlToRaw, GoodBlock b2 = true := by
    intro b2 hb2
    rcases List.mem_map.mp hb2 with ⟨b, hb, rfl⟩
    rcases List.length_eq_one.mp (hsingle b hb) with ⟨t, ht⟩
    exact ml_single_good ht (hgood b hb)
  rw [hchars, parse_srt_flatten_blocks _ hgb, List.map_map]
  apply List.map_congr_left
  intro b hb
  rcases List.length_eq_one.mp (hsingle b hb) with ⟨t, ht⟩
  exact (ml_single_entry ht).symm

/-- The single-line blocks of the C8 witness. -/
def c8SingleBlocks : List MLBlock :=
  [⟨("1" : String).toList, ("00:00:00,000" : String).toList,
    ("00:00:01,000" : String).toList, [("Hello" : String).toList]⟩,
   ⟨("2" : String).toList, ("00:00:01,000" : String).toList,
    ("00:00:02,000" : String).toList, [("World" : String).toList]⟩]

/-- Witness for the amended C8 claim at a concrete two-block document. -/
theorem c8_witness :
    (∀ b ∈ c8SingleBlocks, GoodMLBlock b = true) ∧
    (∀ b ∈ c8SingleBlocks, b.lines.length = 1) ∧
    parse_srt ((c8SingleBlocks.map MLBlock.chars).flatten) =
      c8SingleBlocks.map mlEntryOf :=
  ⟨by decide, by decide,
    c8_parse_single_line_blocks c8SingleBlocks _ rfl (by decide) (by decide)⟩

/-! ### Claim C9: the formatter rewrites only times and indices -/

/-- Claim C9: the sort/repair/renumber pipeline of `format_srt` preserves
text payloads — the output multiset of texts is a permutation of the input's
(no line dropped, duplicated or altered), and both the overlap repair and the
renumbering preserve each entry's text pointwise (only `start`, `end` and
`index` are rewritten; serialization then emits the texts verbatim). -/
theorem c9_format_rewrites_only_times_and_index :
    (∀ entries : List Entry,
      ((correctedEntries entries).map Entry.text).Perm (entries.map Entry.text)) ∧
    (∀ (prev : Entry) (l : List Entry),
      (repairFrom prev l).map Entry.text = l.map Entry.text) ∧
    (∀ (l : List Entry) (n : ℕ), (renumberFrom n l).map Entry.text = l.map Entry.text) := by
  refine ⟨?_, ?_, ?_⟩
  · intro entries
    rw [correctedEntries, renumberFrom_map_text, repairOverlaps_map_text]
    exact (sortEntries_perm entries).map Entry.text
  · intro prev l
    exact repairFrom_map_text l prev
  · exact renumberFrom_map_text

end TranscribeMonkey
